import Mathlib

/-!
Verification of the word-count MapReduce pipeline implemented in
src/proj/src/App.jsx.

The pipeline functions of the source (splitTextIntoChunks, mapFunction,
shufflePhase, reduceFunction and the data path of runMapReduce) are embedded
below as pure Lean functions over lists of characters.  JavaScript strings are
modelled as `List Char`; JavaScript plain objects used as word → value
dictionaries are modelled as insertion-ordered association lists with unique
keys, which is their observable behaviour for the non-numeric keys the demo
manipulates.  The artificial network delays, the log lines and the React state
updates of the source carry no data and are dropped.
-/

set_option maxHeartbeats 1600000

/-- Characters treated as whitespace by the tokenizer: the model of the
character class of the regular expression used at both split sites of the
source (restricted, like `Char.isWhitespace`, to the ASCII whitespace
characters actually exercised by the demo). -/
def isWs (c : Char) : Bool := c.isWhitespace

/-- Model of JS String.prototype.trim: remove leading and trailing
whitespace. -/
def jsTrim (s : List Char) : List Char :=
  ((s.dropWhile isWs).reverse.dropWhile isWs).reverse

/-- Model of JS String.prototype.split on the one-or-more-whitespace regular
expression: the pieces between maximal whitespace runs, including an empty
piece at an end when the string starts or ends with whitespace, and a single
empty piece for the empty string. -/
def jsSplitWs : List Char → List (List Char)
  | [] => [[]]
  | c :: s =>
    if isWs c then
      if s.head?.any isWs then jsSplitWs s
      else [] :: jsSplitWs s
    else
      match jsSplitWs s with
      | [] => [[c]]
      | t :: ts => (c :: t) :: ts

/-- Model of JS Array.prototype.join with the single-space separator. -/
def jsJoinSpace : List (List Char) → List Char
  | [] => []
  | [w] => w
  | w :: ws => w ++ ' ' :: jsJoinSpace ws

/-- Model of JS String.prototype.toLowerCase, applied character by
character. -/
def jsToLower (s : List Char) : List Char := s.map Char.toLower

/-- The whitespace-tokenized word sequence of a text: the non-empty pieces of
the whitespace split, i.e. the maximal whitespace-free runs in order. -/
def tokensOf (s : List Char) : List (List Char) :=
  (jsSplitWs s).filter (fun w => w ≠ [])

/-- A chunk handed to one mapper: its index and its text segment
(source: the objects pushed by splitTextIntoChunks). -/
structure Chunk where
  id : Nat
  text : List Char
deriving DecidableEq

/-- Source function splitTextIntoChunks (App.jsx, lines 23-40): trim and
whitespace-split the input, compute chunkSize = ceil(words.length/numChunks),
and for each i < numChunks whose start index i*chunkSize is still inside the
word array emit the chunk with id i whose text joins
words.slice(i*chunkSize, min((i+1)*chunkSize, words.length)) with single
spaces.  (For numChunks = 0 the JS loop body never runs, so the value of
chunkSize is irrelevant and the result is empty, as here.) -/
def splitTextIntoChunks (text : List Char) (numChunks : Nat) : List Chunk :=
  let words := jsSplitWs (jsTrim text)
  let chunkSize := (words.length + numChunks - 1) / numChunks
  (List.range numChunks).filterMap fun i =>
    if i * chunkSize < words.length then
      some { id := i, text := jsJoinSpace ((words.drop (i * chunkSize)).take chunkSize) }
    else
      none

/-- Output of one mapper: its id and its word-count dictionary
(source: the object returned by mapFunction). -/
structure MapResult where
  mapperId : Nat
  counts : List (List Char × Nat)
deriving DecidableEq

/-- Model of the JS dictionary update `m[w] = (m[w] || 0) + 1`: increment the
entry of w in place if present, otherwise append (w, 1) at the end. -/
def bump : List (List Char × Nat) → List Char → List (List Char × Nat)
  | [], w => [(w, 1)]
  | (k, v) :: m, w => if k = w then (k, v + 1) :: m else (k, v) :: bump m w

/-- Source function mapFunction (App.jsx, lines 43-59), with the simulated
network delay dropped: lower-case the chunk text, split it on whitespace, and
count every non-empty word.  The mapper id is the chunk id. -/
def mapFunction (chunk : Chunk) : MapResult :=
  let words := jsSplitWs (jsToLower chunk.text)
  { mapperId := chunk.id
    counts := words.foldl (fun m w => if w = [] then m else bump m w) [] }

/-- One mapper's contribution to a word's shuffle group
(source: the objects pushed by shufflePhase). -/
structure Contribution where
  mapperId : Nat
  count : Nat
deriving DecidableEq

/-- Model of the JS updates `if (!g[w]) g[w] = []; g[w].push(c)`: append c to
the list held for w, creating the entry at the end of the dictionary when w is
absent. -/
def pushContrib :
    List (List Char × List Contribution) → List Char → Contribution →
    List (List Char × List Contribution)
  | [], w, c => [(w, [c])]
  | (k, vs) :: g, w, c =>
    if k = w then (k, vs ++ [c]) :: g else (k, vs) :: pushContrib g w c

/-- Source function shufflePhase (App.jsx, lines 62-75): fold over the map
outputs and, for each entry (word, count) of each output, append the
contribution (mapperId, count) to that word's group. -/
def shufflePhase (mapOutputs : List MapResult) :
    List (List Char × List Contribution) :=
  mapOutputs.foldl
    (fun g out =>
      out.counts.foldl (fun g e => pushContrib g e.1 ⟨out.mapperId, e.2⟩) g)
    []

/-- Output of one reducer.  The source renders each contributing mapper as the
string "Mapper-<id>"; the model keeps the ids themselves. -/
structure ReduceResult where
  word : List Char
  count : Nat
  sources : List Nat
deriving DecidableEq

/-- Source function reduceFunction (App.jsx, lines 78-88), with the simulated
network delay dropped: total the contributed counts and record the
contributing mapper ids in order. -/
def reduceFunction (word : List Char) (values : List Contribution) : ReduceResult :=
  { word := word
    count := values.foldl (fun sum v => sum + v.count) 0
    sources := values.map (·.mapperId) }

/-- Model of the JS dictionary assignment `m[w] = c`: overwrite the entry of w
in place if present, otherwise append (w, c) at the end. -/
def setKey : List (List Char × Nat) → List Char → Nat → List (List Char × Nat)
  | [], w, c => [(w, c)]
  | (k, v) :: m, w, c => if k = w then (k, c) :: m else (k, v) :: setKey m w c

/-- Data path of the source function runMapReduce (App.jsx, lines 90-153),
with logging, React state updates and artificial delays dropped: split the
input into chunks, run every mapper, shuffle, run one reducer per grouped
word, and collect the final counts dictionary from the reduce outputs. -/
def runMapReduce (inputText : List Char) (numMappers : Nat) :
    List (List Char × Nat) :=
  let textChunks := splitTextIntoChunks inputText numMappers
  let mapOutputs := textChunks.map mapFunction
  let shuffled := shufflePhase mapOutputs
  let reduceOutputs := shuffled.map fun e => reduceFunction e.1 e.2
  reduceOutputs.foldl (fun final out => setKey final out.word out.count) []

/-- Dictionary lookup with default 0 (JS `m[w] || 0` on a counts
dictionary). -/
def getCount : List (List Char × Nat) → List Char → Nat
  | [], _ => 0
  | (k, v) :: m, w => if k = w then v else getCount m w

/-- Dictionary lookup with default [] on a shuffle group. -/
def getGroup : List (List Char × List Contribution) → List Char → List Contribution
  | [], _ => []
  | (k, vs) :: g, w => if k = w then vs else getGroup g w

/-- The keys of a dictionary, in insertion order. -/
def keysOf {β : Type} (m : List (List Char × β)) : List (List Char) :=
  m.map (·.1)

/-- Sum of the values of a counts dictionary. -/
def sumValues (m : List (List Char × Nat)) : Nat := (m.map (·.2)).sum

/-- Sum of the counts recorded for word w across the entries of one counts
dictionary (the value at w, or 0, when the keys are unique). -/
def wSum (m : List (List Char × Nat)) (w : List Char) : Nat :=
  ((m.filter (fun e => e.1 = w)).map (·.2)).sum

/-- Total count a shuffle group holds for word w. -/
def groupSum (g : List (List Char × List Contribution)) (w : List Char) : Nat :=
  ((getGroup g w).map (·.count)).sum

/-- Successive size-k slices of a list, at most n of them, stopping when the
list is exhausted: proof-side restatement of the slicing loop of
splitTextIntoChunks. -/
def chunkList {α : Type} (k : Nat) : Nat → List α → List (List α)
  | 0, _ => []
  | _ + 1, [] => []
  | n + 1, l => l.take k :: chunkList k n (l.drop k)

/-- The per-word total of a shuffle group entry. -/
def contribTotal (e : List Char × List Contribution) : Nat :=
  (e.2.map (·.count)).sum

/-- Grand total of all counts held anywhere in a shuffle group. -/
def spread (g : List (List Char × List Contribution)) : Nat :=
  (g.map contribTotal).sum

/-! ### Character-level lemmas -/

lemma char_toNat_ofNat (n : Nat) (h : n.isValidChar) : (Char.ofNat n).toNat = n := by
  simp [Char.ofNat, h, Char.ofNatAux, Char.toNat, UInt32.ofNatCore, UInt32.toNat]

lemma char_isWs_iff (c : Char) :
    isWs c = true ↔ c.toNat = 32 ∨ c.toNat = 9 ∨ c.toNat = 13 ∨ c.toNat = 10 := by
  have hval : ∀ d : Char, c = d ↔ c.toNat = d.toNat := by
    intro d
    constructor
    · intro h; rw [h]
    · intro h
      exact Char.eq_of_val_eq (UInt32.ext h)
  simp only [isWs, Char.isWhitespace, Bool.or_eq_true, decide_eq_true_eq]
  rw [hval ' ', hval '\t', hval '\x0d', hval '\n']
  norm_num [Char.toNat]
  tauto

lemma toLower_toNat_of_upper (c : Char) (h : 65 ≤ c.toNat ∧ c.toNat ≤ 90) :
    (Char.toLower c).toNat = c.toNat + 32 := by
  have hv : (c.toNat + 32).isValidChar := by
    unfold Nat.isValidChar
    omega
  simp only [Char.toLower, h, if_pos, and_self, ge_iff_le]
  exact char_toNat_ofNat _ hv

lemma toLower_eq_of_not_upper (c : Char) (h : ¬(65 ≤ c.toNat ∧ c.toNat ≤ 90)) :
    Char.toLower c = c := by
  simp only [Char.toLower, ge_iff_le]
  rw [if_neg h]

lemma toLower_idem (c : Char) : Char.toLower (Char.toLower c) = Char.toLower c := by
  by_cases h : 65 ≤ c.toNat ∧ c.toNat ≤ 90
  · have h1 : (Char.toLower c).toNat = c.toNat + 32 := toLower_toNat_of_upper c h
    apply toLower_eq_of_not_upper
    omega
  · rw [toLower_eq_of_not_upper c h, toLower_eq_of_not_upper c h]

lemma isWs_toLower (c : Char) : isWs (Char.toLower c) = isWs c := by
  by_cases h : 65 ≤ c.toNat ∧ c.toNat ≤ 90
  · have h1 : (Char.toLower c).toNat = c.toNat + 32 := toLower_toNat_of_upper c h
    have h2 : isWs (Char.toLower c) = false := by
      rw [← Bool.not_eq_true, char_isWs_iff]
      omega
    have h3 : isWs c = false := by
      rw [← Bool.not_eq_true, char_isWs_iff]
      omega
    rw [h2, h3]
  · rw [toLower_eq_of_not_upper c h]

/-! ### Structure of the whitespace split -/

lemma jsSplitWs_ne_nil : ∀ s : List Char, jsSplitWs s ≠ []
  | [] => by simp [jsSplitWs]
  | c :: s => by
    simp only [jsSplitWs]
    split
    · split
      · exact jsSplitWs_ne_nil s
      · simp
    · split <;> simp

lemma jsSplitWs_exists_cons (s : List Char) : ∃ t ts, jsSplitWs s = t :: ts := by
  cases h : jsSplitWs s with
  | nil => exact absurd h (jsSplitWs_ne_nil s)
  | cons t ts => exact ⟨t, ts, rfl⟩

lemma jsSplitWs_cons_not_ws {c : Char} {s : List Char} (h : isWs c = false)
    {t : List Char} {ts : List (List Char)} (hs : jsSplitWs s = t :: ts) :
    jsSplitWs (c :: s) = (c :: t) :: ts := by
  simp only [jsSplitWs, h, Bool.false_eq_true, if_false, hs]

lemma jsSplitWs_cons_ws_break {c : Char} {s : List Char} (hc : isWs c = true)
    (hs : s.head?.any isWs = false) :
    jsSplitWs (c :: s) = [] :: jsSplitWs s := by
  simp only [jsSplitWs, hc, if_true, hs, Bool.false_eq_true, if_false]

lemma jsSplitWs_cons_ws_collapse {c : Char} {s : List Char} (hc : isWs c = true)
    (hs : s.head?.any isWs = true) :
    jsSplitWs (c :: s) = jsSplitWs s := by
  simp only [jsSplitWs, hc, if_true, hs]

lemma mem_jsSplitWs : ∀ (s : List Char), ∀ w ∈ jsSplitWs s, ∀ a ∈ w, a ∈ s ∧ isWs a = false
  | [] => by simp [jsSplitWs]
  | c :: s => by
    intro w hw a ha
    by_cases hc : isWs c = true
    · cases hcol : s.head?.any isWs with
      | true =>
        rw [jsSplitWs_cons_ws_collapse hc hcol] at hw
        have := mem_jsSplitWs s w hw a ha
        exact ⟨List.mem_cons_of_mem _ this.1, this.2⟩
      | false =>
        rw [jsSplitWs_cons_ws_break hc hcol] at hw
        rcases List.mem_cons.mp hw with h | h
        · subst h; simp at ha
        · have := mem_jsSplitWs s w h a ha
          exact ⟨List.mem_cons_of_mem _ this.1, this.2⟩
    · have hc' : isWs c = false := by simpa using hc
      obtain ⟨t, ts, hs⟩ := jsSplitWs_exists_cons s
      rw [jsSplitWs_cons_not_ws hc' hs] at hw
      rcases List.mem_cons.mp hw with h | h
      · subst h
        rcases List.mem_cons.mp ha with h' | h'
        · subst h'; exact ⟨List.mem_cons_self _ _, hc'⟩
        · have ht : t ∈ jsSplitWs s := by rw [hs]; exact List.mem_cons_self _ _
          have := mem_jsSplitWs s t ht a h'
          exact ⟨List.mem_cons_of_mem _ this.1, this.2⟩
      · have hts : w ∈ jsSplitWs s := by rw [hs]; exact List.mem_cons_of_mem _ h
        have := mem_jsSplitWs s w hts a ha
        exact ⟨List.mem_cons_of_mem _ this.1, this.2⟩

lemma jsSplitWs_all_nil_of_all_ws {s : List Char} (h : ∀ a ∈ s, isWs a = true) :
    ∀ w ∈ jsSplitWs s, w = [] := by
  intro w hw
  rw [List.eq_nil_iff_forall_not_mem]
  intro a ha
  have h1 := mem_jsSplitWs s w hw a ha
  rw [h a h1.1] at h1
  simp at h1

lemma jsSplitWs_single_word : ∀ (s : List Char), s ≠ [] → (∀ a ∈ s, isWs a = false) →
    jsSplitWs s = [s]
  | [], h, _ => absurd rfl h
  | [c], _, hfree => by
    have hc : isWs c = false := hfree c (List.mem_singleton_self c)
    rw [jsSplitWs_cons_not_ws hc (show jsSplitWs [] = [] :: [] from rfl)]
  | c :: d :: s, _, hfree => by
    have hc : isWs c = false := hfree c (List.mem_cons_self _ _)
    have ih := jsSplitWs_single_word (d :: s) (by simp)
      (fun a ha => hfree a (List.mem_cons_of_mem _ ha))
    rw [jsSplitWs_cons_not_ws hc ih]

lemma jsSplitWs_head_nil_of_ws_start :
    ∀ (s : List Char), s.head?.any isWs = true → ∃ ts, jsSplitWs s = [] :: ts
  | [], h => by simp at h
  | c :: s, h => by
    have hc : isWs c = true := by simpa using h
    cases hcol : s.head?.any isWs with
    | true =>
      obtain ⟨ts, hts⟩ := jsSplitWs_head_nil_of_ws_start s hcol
      exact ⟨ts, by rw [jsSplitWs_cons_ws_collapse hc hcol, hts]⟩
    | false => exact ⟨jsSplitWs s, jsSplitWs_cons_ws_break hc hcol⟩


lemma jsSplitWs_head_cons_of_not_ws {c : Char} (s : List Char) (h : isWs c = false) :
    ∃ t ts, jsSplitWs (c :: s) = (c :: t) :: ts := by
  obtain ⟨t, ts, hs⟩ := jsSplitWs_exists_cons s
  exact ⟨t, ts, jsSplitWs_cons_not_ws h hs⟩

lemma jsSplitWs_singleton_not_ws {c : Char} (h : isWs c = false) :
    jsSplitWs [c] = [[c]] :=
  jsSplitWs_cons_not_ws h rfl

lemma jsSplitWs_tail_ne_nil :
    ∀ (s : List Char), (∀ a, s.getLast? = some a → isWs a = false) →
      ∀ w ∈ (jsSplitWs s).tail, w ≠ []
  | [], _ => by simp [jsSplitWs]
  | [c], h => by
    have hc : isWs c = false := h c rfl
    rw [jsSplitWs_singleton_not_ws hc]
    simp
  | c :: d :: s, h => by
    have h' : ∀ a, (d :: s).getLast? = some a → isWs a = false := by
      intro a ha
      exact h a (by rw [List.getLast?_cons_cons]; exact ha)
    have ih := jsSplitWs_tail_ne_nil (d :: s) h'
    by_cases hc : isWs c = true
    · cases hd : isWs d with
      | true =>
        rw [jsSplitWs_cons_ws_collapse hc (by simp [hd])]
        exact ih
      | false =>
        rw [jsSplitWs_cons_ws_break hc (by simp [hd])]
        intro w hw
        simp only [List.tail_cons] at hw
        obtain ⟨t, ts, hts⟩ := jsSplitWs_head_cons_of_not_ws s hd
        rw [hts] at hw
        rcases List.mem_cons.mp hw with h1 | h1
        · subst h1; simp
        · exact ih w (by rw [hts]; exact h1)
    · have hc' : isWs c = false := by simpa using hc
      obtain ⟨t, ts, hts⟩ := jsSplitWs_exists_cons (d :: s)
      rw [jsSplitWs_cons_not_ws hc' hts]
      intro w hw
      simp only [List.tail_cons] at hw
      exact ih w (by rw [hts]; simpa using hw)

lemma jsSplitWs_all_ne_nil (s : List Char) (hne : s ≠ [])
    (h0 : ∀ a, s.head? = some a → isWs a = false)
    (h1 : ∀ a, s.getLast? = some a → isWs a = false) :
    ∀ w ∈ jsSplitWs s, w ≠ [] := by
  cases s with
  | nil => exact absurd rfl hne
  | cons c s =>
    have hc : isWs c = false := h0 c rfl
    obtain ⟨t, ts, hts⟩ := jsSplitWs_head_cons_of_not_ws s hc
    intro w hw
    rw [hts] at hw
    rcases List.mem_cons.mp hw with h2 | h2
    · subst h2; simp
    · refine jsSplitWs_tail_ne_nil (c :: s) h1 w ?_
      rw [hts]
      simp [h2]

/-! ### Invariance of the token sequence under trimming -/

lemma tokensOf_nil : tokensOf [] = [] := rfl

lemma tokensOf_cons_ws {c : Char} {s : List Char} (h : isWs c = true) :
    tokensOf (c :: s) = tokensOf s := by
  unfold tokensOf
  cases hcol : s.head?.any isWs with
  | true => rw [jsSplitWs_cons_ws_collapse h hcol]
  | false =>
    rw [jsSplitWs_cons_ws_break h hcol]
    simp

lemma tokensOf_cons_not_ws {c : Char} {s : List Char} (h : isWs c = false)
    {t : List Char} {ts : List (List Char)} (hs : jsSplitWs s = t :: ts) :
    tokensOf (c :: s) = (c :: t) :: ts.filter (fun w => w ≠ []) := by
  unfold tokensOf
  rw [jsSplitWs_cons_not_ws h hs]
  simp

lemma tokensOf_dropWhile (s : List Char) : tokensOf (s.dropWhile isWs) = tokensOf s := by
  induction s with
  | nil => rfl
  | cons c s ih =>
    cases hc : isWs c with
    | true => rw [List.dropWhile_cons_of_pos hc, ih, tokensOf_cons_ws hc]
    | false => rw [List.dropWhile_cons_of_neg (by simp [hc])]

lemma tokensOf_all_ws {s : List Char} (h : ∀ a ∈ s, isWs a = true) :
    tokensOf s = [] := by
  unfold tokensOf
  rw [List.filter_eq_nil_iff]
  intro w hw
  simp [jsSplitWs_all_nil_of_all_ws h w hw]

lemma tokensOf_append_all_ws :
    ∀ (s t : List Char), (∀ a ∈ t, isWs a = true) → tokensOf (s ++ t) = tokensOf s
  | [], t, h => by rw [List.nil_append, tokensOf_all_ws h, tokensOf_nil]
  | c :: s, t, h => by
    have ih := tokensOf_append_all_ws s t h
    by_cases hc : isWs c = true
    · rw [List.cons_append, tokensOf_cons_ws hc, tokensOf_cons_ws hc, ih]
    · have hc' : isWs c = false := by simpa using hc
      obtain ⟨t1, ts1, h1⟩ := jsSplitWs_exists_cons (s ++ t)
      obtain ⟨t2, ts2, h2⟩ := jsSplitWs_exists_cons s
      rw [List.cons_append, tokensOf_cons_not_ws hc' h1, tokensOf_cons_not_ws hc' h2]
      have hiff : t1 = [] ↔ t2 = [] := by
        cases s with
        | nil =>
          have ht2 : t2 = [] := by
            have : jsSplitWs ([] : List Char) = [[]] := rfl
            rw [this] at h2
            exact (List.cons.injEq _ _ _ _ ▸ h2).1.symm ▸ rfl
          cases t with
          | nil =>
            have : jsSplitWs (([] : List Char) ++ []) = [[]] := rfl
            rw [this] at h1
            simp only [List.cons.injEq] at h1
            simp [h1.1.symm, ht2]
          | cons d t' =>
            have hd : isWs d = true := h d (List.mem_cons_self _ _)
            have : (d :: t').head?.any isWs = true := by simp [hd]
            obtain ⟨ts, hts⟩ := jsSplitWs_head_nil_of_ws_start (d :: t') this
            rw [List.nil_append] at h1
            rw [hts] at h1
            simp only [List.cons.injEq] at h1
            simp [h1.1.symm, ht2]
        | cons d s' =>
          cases hd : isWs d with
          | true =>
            have hws1 : ((d :: s') ++ t).head?.any isWs = true := by simp [hd]
            have hws2 : (d :: s').head?.any isWs = true := by simp [hd]
            obtain ⟨u1, hu1⟩ := jsSplitWs_head_nil_of_ws_start ((d :: s') ++ t) hws1
            obtain ⟨u2, hu2⟩ := jsSplitWs_head_nil_of_ws_start (d :: s') hws2
            rw [hu1] at h1
            rw [hu2] at h2
            simp only [List.cons.injEq] at h1 h2
            simp [h1.1.symm, h2.1.symm]
          | false =>
            obtain ⟨u1, v1, hu1⟩ := jsSplitWs_head_cons_of_not_ws (s' ++ t) hd
            obtain ⟨u2, v2, hu2⟩ := jsSplitWs_head_cons_of_not_ws s' hd
            rw [List.cons_append] at h1
            rw [hu1] at h1
            rw [hu2] at h2
            simp only [List.cons.injEq] at h1 h2
            constructor
            · intro hx; rw [← h1.1] at hx; simp at hx
            · intro hx; rw [← h2.1] at hx; simp at hx
      unfold tokensOf at ih
      rw [h1, h2] at ih
      by_cases hnil : t2 = []
      · have hnil1 : t1 = [] := hiff.mpr hnil
        subst hnil; subst hnil1
        simp only [List.filter_cons, decide_not] at ih ⊢
        simpa using ih
      · have hnil1 : t1 ≠ [] := fun hx => hnil (hiff.mp hx)
        simp only [List.filter_cons, decide_not] at ih
        rw [if_pos (by simpa using hnil1), if_pos (by simpa using hnil)] at ih
        simp only [List.cons.injEq] at ih
        simp only [ne_eq, decide_not]
        rw [ih.1, ih.2]

/-! ### Trimming -/

lemma head?_dropWhile_not (p : Char → Bool) :
    ∀ (l : List Char) (c : Char), (l.dropWhile p).head? = some c → p c = false
  | [], c => by simp
  | a :: l, c => by
    cases hp : p a with
    | true =>
      rw [List.dropWhile_cons_of_pos hp]
      exact head?_dropWhile_not p l c
    | false =>
      rw [List.dropWhile_cons_of_neg (by simp [hp])]
      intro h
      simp only [List.head?_cons, Option.some.injEq] at h
      rw [← h]
      exact hp

lemma jsTrim_decomp (s : List Char) :
    ∃ u, s.dropWhile isWs = jsTrim s ++ u ∧ ∀ a ∈ u, isWs a = true := by
  refine ⟨(((s.dropWhile isWs).reverse.takeWhile isWs)).reverse, ?_, ?_⟩
  · have h := List.takeWhile_append_dropWhile (p := isWs) (l := (s.dropWhile isWs).reverse)
    have h2 := congrArg List.reverse h
    rw [List.reverse_append, List.reverse_reverse] at h2
    exact h2.symm
  · intro a ha
    rw [List.mem_reverse] at ha
    exact List.mem_takeWhile_imp ha

lemma jsTrim_head? (s : List Char) :
    ∀ c, (jsTrim s).head? = some c → isWs c = false := by
  intro c hc
  unfold jsTrim at hc
  rw [List.head?_reverse] at hc
  have h1 : ((s.dropWhile isWs).reverse).getLast? = some c := by
    have h := List.takeWhile_append_dropWhile (p := isWs) (l := (s.dropWhile isWs).reverse)
    rw [← h, List.getLast?_append, hc]
    rfl
  rw [List.getLast?_reverse] at h1
  exact head?_dropWhile_not isWs s c h1

lemma jsTrim_getLast? (s : List Char) :
    ∀ c, (jsTrim s).getLast? = some c → isWs c = false := by
  intro c hc
  unfold jsTrim at hc
  rw [List.getLast?_reverse] at hc
  exact head?_dropWhile_not isWs (s.dropWhile isWs).reverse c hc

lemma jsTrim_eq_nil_iff (s : List Char) :
    jsTrim s = [] ↔ ∀ a ∈ s, isWs a = true := by
  constructor
  · intro h a ha
    unfold jsTrim at h
    rw [List.reverse_eq_nil_iff, List.dropWhile_eq_nil_iff] at h
    have hA : ∀ b ∈ s.dropWhile isWs, isWs b = true := by
      intro b hb
      exact h b (by rw [List.mem_reverse]; exact hb)
    have hsplit := List.takeWhile_append_dropWhile (p := isWs) (l := s)
    rw [← hsplit] at ha
    rcases List.mem_append.mp ha with h1 | h1
    · exact List.mem_takeWhile_imp h1
    · exact hA _ h1
  · intro h
    unfold jsTrim
    have : s.dropWhile isWs = [] := List.dropWhile_eq_nil_iff.mpr h
    rw [this]
    rfl

lemma tokensOf_jsTrim (s : List Char) : tokensOf (jsTrim s) = tokensOf s := by
  obtain ⟨u, hu, hws⟩ := jsTrim_decomp s
  calc tokensOf (jsTrim s) = tokensOf (jsTrim s ++ u) := (tokensOf_append_all_ws _ u hws).symm
    _ = tokensOf (s.dropWhile isWs) := by rw [hu]
    _ = tokensOf s := tokensOf_dropWhile s

lemma jsSplitWs_jsTrim {s : List Char} (h : jsTrim s ≠ []) :
    jsSplitWs (jsTrim s) = tokensOf s := by
  have hall : ∀ w ∈ jsSplitWs (jsTrim s), w ≠ [] :=
    jsSplitWs_all_ne_nil (jsTrim s) h (jsTrim_head? s) (jsTrim_getLast? s)
  rw [← tokensOf_jsTrim]
  unfold tokensOf
  rw [List.filter_eq_self.mpr (by intro a ha; simpa using hall a ha)]

/-! ### Joining words back into a text -/

lemma isWs_space : isWs ' ' = true := rfl

lemma jsSplitWs_word_append :
    ∀ (w : List Char), w ≠ [] → (∀ a ∈ w, isWs a = false) →
      ∀ (c : Char) (t : List Char), isWs c = false →
        jsSplitWs (w ++ ' ' :: c :: t) = w :: jsSplitWs (c :: t)
  | [], h, _ => absurd rfl h
  | [a], _, hfree => by
    intro c t hc
    have ha : isWs a = false := hfree a (List.mem_singleton_self a)
    have hmid : jsSplitWs (' ' :: c :: t) = [] :: jsSplitWs (c :: t) :=
      jsSplitWs_cons_ws_break isWs_space (by simp [hc])
    rw [List.singleton_append, jsSplitWs_cons_not_ws ha hmid]
  | a :: b :: w, _, hfree => by
    intro c t hc
    have ha : isWs a = false := hfree a (List.mem_cons_self _ _)
    have ih := jsSplitWs_word_append (b :: w) (by simp)
      (fun x hx => hfree x (List.mem_cons_of_mem _ hx)) c t hc
    rw [List.cons_append, jsSplitWs_cons_not_ws ha ih]

lemma jsJoinSpace_cons_cons (w w2 : List Char) (ws : List (List Char)) :
    jsJoinSpace (w :: w2 :: ws) = w ++ ' ' :: jsJoinSpace (w2 :: ws) := rfl

lemma jsSplitWs_jsJoinSpace :
    ∀ (ws : List (List Char)), ws ≠ [] →
      (∀ w ∈ ws, w ≠ [] ∧ ∀ a ∈ w, isWs a = false) →
      jsSplitWs (jsJoinSpace ws) = ws
  | [], h, _ => absurd rfl h
  | [w], _, hws => by
    have hw := hws w (List.mem_singleton_self w)
    show jsSplitWs w = [w]
    exact jsSplitWs_single_word w hw.1 hw.2
  | w :: w2 :: ws, _, hws => by
    have hw := hws w (List.mem_cons_self _ _)
    have hw2 := hws w2 (List.mem_cons_of_mem _ (List.mem_cons_self _ _))
    have ih := jsSplitWs_jsJoinSpace (w2 :: ws) (by simp)
      (fun x hx => hws x (List.mem_cons_of_mem _ hx))
    obtain ⟨c, w2', hc⟩ : ∃ c w2', w2 = c :: w2' := by
      cases w2 with
      | nil => exact absurd rfl hw2.1
      | cons c w2' => exact ⟨c, w2', rfl⟩
    have hcws : isWs c = false := hw2.2 c (by rw [hc]; exact List.mem_cons_self _ _)
    obtain ⟨r, hr⟩ : ∃ r, jsJoinSpace (w2 :: ws) = c :: (w2' ++ r) := by
      cases ws with
      | nil => exact ⟨[], by simp [hc, jsJoinSpace]⟩
      | cons w3 ws' => exact ⟨' ' :: jsJoinSpace (w3 :: ws'), by
          rw [jsJoinSpace_cons_cons, hc, List.cons_append]⟩
    rw [jsJoinSpace_cons_cons, hr]
    rw [jsSplitWs_word_append w hw.1 hw.2 c (w2' ++ r) hcws]
    rw [← hr, ih]

lemma jsToLower_jsJoinSpace :
    ∀ (ws : List (List Char)), jsToLower (jsJoinSpace ws) = jsJoinSpace (ws.map jsToLower)
  | [] => rfl
  | [w] => rfl
  | w :: w2 :: ws => by
    have ih := jsToLower_jsJoinSpace (w2 :: ws)
    simp only [jsToLower] at ih ⊢
    simp only [List.map_cons, jsJoinSpace_cons_cons, List.map_append, List.map_cons]
    rw [show Char.toLower ' ' = ' ' from by decide, ih]
    rfl

/-! ### The slicing loop -/

lemma chunkList_nil_right {α : Type} (k n : Nat) : chunkList k n ([] : List α) = [] := by
  cases n <;> rfl

lemma chunkList_cons_succ {α : Type} (k n : Nat) (a : α) (l : List α) :
    chunkList k (n + 1) (a :: l) = (a :: l).take k :: chunkList k n ((a :: l).drop k) := rfl

lemma range_filterMap_chunkList {α β : Type} (f : List α → β) (k : Nat) :
    ∀ (n : Nat) (l : List α),
      (List.range n).filterMap
        (fun i => if i * k < l.length then some (f ((l.drop (i * k)).take k)) else none)
      = (chunkList k n l).map f
  | 0, l => by simp [chunkList]
  | n + 1, [] => by
    rw [chunkList_nil_right]
    simp
  | n + 1, a :: l => by
    rw [List.range_succ_eq_map, List.filterMap_cons, chunkList_cons_succ]
    have h0 : (0 : Nat) * k < (a :: l).length := by simp [Nat.zero_mul]
    rw [if_pos h0]
    simp only [Nat.zero_mul, List.drop_zero, List.map_cons]
    congr 1
    rw [List.filterMap_map]
    have hfun : (fun i => if i * k < (a :: l).length then
          some (f (((a :: l).drop (i * k)).take k)) else none) ∘ Nat.succ =
        fun i => if i * k < ((a :: l).drop k).length then
          some (f ((((a :: l).drop k).drop (i * k)).take k)) else none := by
      funext i
      show (if (i + 1) * k < (a :: l).length then
          some (f (((a :: l).drop ((i + 1) * k)).take k)) else none) = _
      have hd : (a :: l).drop ((i + 1) * k) = ((a :: l).drop k).drop (i * k) := by
        have hik : (i + 1) * k = k + i * k := by ring
        rw [List.drop_drop, hik]
      rw [hd, List.length_drop]
      refine if_congr ?_ rfl rfl
      rw [Nat.succ_mul]
      generalize i * k = m
      generalize (a :: l).length = L
      omega
    rw [hfun]
    exact range_filterMap_chunkList f k n ((a :: l).drop k)

lemma chunkList_join {α : Type} (k : Nat) :
    ∀ (n : Nat) (l : List α), l.length ≤ n * k → (chunkList k n l).flatten = l
  | 0, l, h => by
    have : l = [] := List.eq_nil_of_length_eq_zero (by omega)
    simp [this, chunkList]
  | n + 1, [], _ => by rw [chunkList_nil_right]; rfl
  | n + 1, a :: l, h => by
    rw [chunkList_cons_succ, List.flatten_cons]
    have hlen : ((a :: l).drop k).length ≤ n * k := by
      rw [List.length_drop]
      rw [Nat.succ_mul] at h
      omega
    rw [chunkList_join k n ((a :: l).drop k) hlen]
    exact List.take_append_drop k (a :: l)

lemma chunkList_mem_ne_nil {α : Type} {k : Nat} (hk : 1 ≤ k) :
    ∀ (n : Nat) (l : List α), ∀ x ∈ chunkList k n l, x ≠ []
  | 0, l => by simp [chunkList]
  | n + 1, [] => by rw [chunkList_nil_right]; simp
  | n + 1, a :: l => by
    rw [chunkList_cons_succ]
    intro x hx
    rcases List.mem_cons.mp hx with h | h
    · subst h
      obtain ⟨m, rfl⟩ : ∃ m, k = m + 1 := ⟨k - 1, by omega⟩
      simp [List.take_cons]
    · exact chunkList_mem_ne_nil hk n ((a :: l).drop k) x h

lemma mem_of_mem_chunkList {α : Type} {k : Nat} :
    ∀ (n : Nat) (l : List α) (x : List α), x ∈ chunkList k n l → ∀ a ∈ x, a ∈ l
  | 0, l, x => by simp [chunkList]
  | n + 1, [], x => by rw [chunkList_nil_right]; simp
  | n + 1, b :: l, x => by
    rw [chunkList_cons_succ]
    intro hx a ha
    rcases List.mem_cons.mp hx with h | h
    · exact List.mem_of_mem_take (h ▸ ha)
    · exact List.mem_of_mem_drop (mem_of_mem_chunkList n ((b :: l).drop k) x h a ha)

lemma chunkList_dropLast_length {α : Type} {k : Nat} :
    ∀ (n : Nat) (l : List α), ∀ x ∈ (chunkList k n l).dropLast, x.length = k
  | 0, l => by simp [chunkList]
  | n + 1, [] => by rw [chunkList_nil_right]; simp
  | n + 1, a :: l => by
    rw [chunkList_cons_succ]
    cases hrest : chunkList k n ((a :: l).drop k) with
    | nil => simp
    | cons r rs =>
      intro x hx
      rw [List.dropLast_cons₂] at hx
      rcases List.mem_cons.mp hx with h | h
      · subst h
        have hdrop : (a :: l).drop k ≠ [] := by
          intro hd
          rw [hd, chunkList_nil_right] at hrest
          exact List.cons_ne_nil r rs hrest.symm
        have hk : k < (a :: l).length := by
          by_contra hle
          exact hdrop (List.drop_eq_nil_of_le (by omega))
        rw [List.length_take]
        omega
      · have := chunkList_dropLast_length n ((a :: l).drop k) x (by rw [hrest]; exact h)
        exact this

lemma chunkList_getLast?_length {α : Type} {k : Nat} (hk : 1 ≤ k) :
    ∀ (n : Nat) (l : List α), l ≠ [] →
      ∀ x, (chunkList k n l).getLast? = some x → 1 ≤ x.length ∧ x.length ≤ k
  | 0, l, hne => by
    intro x hx
    simp [chunkList] at hx
  | n + 1, [], hne => absurd rfl hne
  | n + 1, a :: l, _ => by
    intro x hx
    rw [chunkList_cons_succ] at hx
    cases hrest : chunkList k n ((a :: l).drop k) with
    | nil =>
      rw [hrest] at hx
      simp only [List.getLast?_singleton, Option.some.injEq] at hx
      subst hx
      rw [List.length_take]
      simp only [List.length_cons]
      omega
    | cons r rs =>
      rw [hrest, List.getLast?_cons_cons] at hx
      have hdrop : (a :: l).drop k ≠ [] := by
        intro hd
        rw [hd, chunkList_nil_right] at hrest
        exact List.cons_ne_nil r rs hrest.symm
      have := chunkList_getLast?_length hk n ((a :: l).drop k) hdrop x
      apply this
      rw [hrest]
      exact hx

lemma chunkList_length_le {α : Type} (k : Nat) :
    ∀ (n : Nat) (l : List α), (chunkList k n l).length ≤ n
  | 0, l => by simp [chunkList]
  | n + 1, [] => by rw [chunkList_nil_right]; simp
  | n + 1, a :: l => by
    rw [chunkList_cons_succ, List.length_cons]
    have := chunkList_length_le k n ((a :: l).drop k)
    omega

lemma chunkList_one_length {α : Type} :
    ∀ (n : Nat) (l : List α), (chunkList 1 n l).length = min n l.length
  | 0, l => by simp [chunkList]
  | n + 1, [] => by rw [chunkList_nil_right]; simp
  | n + 1, a :: l => by
    rw [chunkList_cons_succ, List.length_cons]
    have h : (a :: l).drop 1 = l := rfl
    rw [h, chunkList_one_length n l]
    simp only [List.length_cons]
    omega

/-! ### The partitioner -/

lemma ceil_le_mul {L n : Nat} (hn : 1 ≤ n) : L ≤ n * ((L + n - 1) / n) := by
  have hdm := Nat.div_add_mod (L + n - 1) n
  have hmod : (L + n - 1) % n < n := Nat.mod_lt _ (by omega)
  omega

lemma ceil_pos {L n : Nat} (hn : 1 ≤ n) (hL : 1 ≤ L) : 1 ≤ (L + n - 1) / n := by
  rw [Nat.le_div_iff_mul_le (by omega)]
  omega

lemma ceil_eq_one {L n : Nat} (hL : 1 ≤ L) (hLn : L ≤ n) : (L + n - 1) / n = 1 :=
  Nat.div_eq_of_lt_le (by omega) (by omega)

lemma splitTextIntoChunks_map_text (text : List Char) (n : Nat) :
    (splitTextIntoChunks text n).map (·.text) =
      (chunkList (((jsSplitWs (jsTrim text)).length + n - 1) / n) n
        (jsSplitWs (jsTrim text))).map jsJoinSpace := by
  simp only [splitTextIntoChunks]
  rw [List.map_filterMap]
  rw [← range_filterMap_chunkList jsJoinSpace _ n (jsSplitWs (jsTrim text))]
  congr 1
  funext i
  split <;> rfl

lemma words_eq_tokensOf {text : List Char} (h : jsTrim text ≠ []) :
    jsSplitWs (jsTrim text) = tokensOf text :=
  jsSplitWs_jsTrim h

lemma tokensOf_words_spec {text : List Char} (h : jsTrim text ≠ []) :
    ∀ w ∈ tokensOf text, w ≠ [] ∧ ∀ a ∈ w, isWs a = false := by
  intro w hw
  rw [← words_eq_tokensOf h] at hw
  refine ⟨jsSplitWs_all_ne_nil (jsTrim text) h (jsTrim_head? text) (jsTrim_getLast? text) w hw, ?_⟩
  intro a ha
  exact (mem_jsSplitWs (jsTrim text) w hw a ha).2

lemma tokensOf_length_pos {text : List Char} (h : jsTrim text ≠ []) :
    1 ≤ (tokensOf text).length := by
  rw [← words_eq_tokensOf h]
  rw [Nat.one_le_iff_ne_zero]
  intro hz
  exact jsSplitWs_ne_nil (jsTrim text) (List.eq_nil_of_length_eq_zero hz)

lemma jsTrim_ne_nil_of_tokens {text : List Char} (h : 1 ≤ (tokensOf text).length) :
    jsTrim text ≠ [] := by
  intro hz
  have hws := (jsTrim_eq_nil_iff text).mp hz
  rw [tokensOf_all_ws hws] at h
  simp at h

lemma splitTextIntoChunks_ws_only {text : List Char} {n : Nat} (hn : 1 ≤ n)
    (h : jsTrim text = []) :
    splitTextIntoChunks text n = [{ id := 0, text := [] }] := by
  obtain ⟨m, rfl⟩ : ∃ m, n = m + 1 := ⟨n - 1, by omega⟩
  have h1 : jsSplitWs (jsTrim text) = [[]] := by rw [h]; rfl
  simp only [splitTextIntoChunks, h1, List.length_cons, List.length_nil]
  have h2 : (0 + 1 + (m + 1) - 1) / (m + 1) = 1 := by
    rw [show 0 + 1 + (m + 1) - 1 = m + 1 by omega]
    exact Nat.div_self (by omega)
  rw [h2, List.range_succ_eq_map, List.filterMap_cons]
  norm_num
  rfl

lemma tokensOf_jsJoinSpace (ws : List (List Char)) (hne : ws ≠ [])
    (hws : ∀ w ∈ ws, w ≠ [] ∧ ∀ a ∈ w, isWs a = false) :
    tokensOf (jsJoinSpace ws) = ws := by
  unfold tokensOf
  rw [jsSplitWs_jsJoinSpace ws hne hws]
  apply List.filter_eq_self.mpr
  intro w hw
  simpa using (hws w hw).1

lemma chunk_words_flatten {text : List Char} (h : jsTrim text ≠ []) {n : Nat} (hn : 1 ≤ n) :
    ((splitTextIntoChunks text n).map (fun c => tokensOf c.text)).flatten = tokensOf text := by
  have hW := words_eq_tokensOf h
  have hwords := tokensOf_words_spec h
  have hLpos := tokensOf_length_pos h
  have hk : 1 ≤ ((tokensOf text).length + n - 1) / n := ceil_pos hn hLpos
  have h1 : (splitTextIntoChunks text n).map (·.text) =
      (chunkList (((tokensOf text).length + n - 1) / n) n (tokensOf text)).map jsJoinSpace := by
    rw [splitTextIntoChunks_map_text, hW]
  have h2 : (splitTextIntoChunks text n).map (fun c => tokensOf c.text)
      = ((splitTextIntoChunks text n).map (·.text)).map tokensOf := by
    rw [List.map_map]
    rfl
  rw [h2, h1, List.map_map]
  have h3 : (chunkList (((tokensOf text).length + n - 1) / n) n (tokensOf text)).map
        (tokensOf ∘ jsJoinSpace)
      = (chunkList (((tokensOf text).length + n - 1) / n) n (tokensOf text)).map id := by
    apply List.map_congr_left
    intro slice hslice
    have hne := chunkList_mem_ne_nil hk n (tokensOf text) slice hslice
    have hcond : ∀ w ∈ slice, w ≠ [] ∧ ∀ a ∈ w, isWs a = false := by
      intro w hw
      exact hwords w (mem_of_mem_chunkList n (tokensOf text) slice hslice w hw)
    show tokensOf (jsJoinSpace slice) = slice
    exact tokensOf_jsJoinSpace slice hne hcond
  rw [h3, List.map_id]
  exact chunkList_join _ n (tokensOf text) (ceil_le_mul hn)

lemma runMapReduce_ws_only {text : List Char} {n : Nat} (hn : 1 ≤ n)
    (h : jsTrim text = []) : runMapReduce text n = [] := by
  simp only [runMapReduce]
  rw [splitTextIntoChunks_ws_only hn h]
  rfl

/-! ### The word-count dictionary of one mapper -/

lemma keysOf_cons {β : Type} (p : List Char × β) (m : List (List Char × β)) :
    keysOf (p :: m) = p.1 :: keysOf m := rfl

lemma getCount_cons (k : List Char) (v : Nat) (m : List (List Char × Nat)) (w : List Char) :
    getCount ((k, v) :: m) w = if k = w then v else getCount m w := rfl

lemma getCount_bump_self : ∀ (m : List (List Char × Nat)) (w : List Char),
    getCount (bump m w) w = getCount m w + 1
  | [], w => by simp [bump, getCount]
  | (k, v) :: m, w => by
    by_cases h : k = w
    · subst h
      simp [bump, getCount]
    · simp only [bump, if_neg h, getCount_cons, if_neg h]
      exact getCount_bump_self m w

lemma getCount_bump_other {w' w : List Char} (h : w' ≠ w) :
    ∀ (m : List (List Char × Nat)), getCount (bump m w) w' = getCount m w'
  | [] => by
    have hne : ¬(w = w') := fun hh => h hh.symm
    simp [bump, getCount, hne]
  | (k, v) :: m => by
    by_cases hk : k = w
    · subst hk
      have hne : ¬(k = w') := fun hh => h hh.symm
      simp [bump, getCount_cons, if_neg hne]
    · rw [show bump ((k, v) :: m) w = (k, v) :: bump m w from by simp [bump, hk]]
      rw [getCount_cons, getCount_cons]
      by_cases hk' : k = w'
      · rw [if_pos hk', if_pos hk']
      · rw [if_neg hk', if_neg hk']
        exact getCount_bump_other h m

lemma keysOf_bump_eq : ∀ (m : List (List Char × Nat)) (w : List Char),
    keysOf (bump m w) = if w ∈ keysOf m then keysOf m else keysOf m ++ [w]
  | [], w => by simp [bump, keysOf]
  | (k, v) :: m, w => by
    by_cases h : k = w
    · subst h
      rw [show bump ((k, v) :: m) k = (k, v + 1) :: m from by simp [bump]]
      rw [keysOf_cons, keysOf_cons]
      rw [if_pos (List.mem_cons_self _ _)]
    · rw [show bump ((k, v) :: m) w = (k, v) :: bump m w from by simp [bump, h]]
      rw [keysOf_cons, keysOf_cons, keysOf_bump_eq m w]
      have hwk : ¬(w = k) := fun hh => h hh.symm
      by_cases hm : w ∈ keysOf m
      · rw [if_pos hm, if_pos (List.mem_cons_of_mem _ hm)]
      · rw [if_neg hm, if_neg (by rw [List.mem_cons]; push_neg; exact ⟨hwk, hm⟩)]
        rfl

lemma mem_keysOf_bump {m : List (List Char × Nat)} {w w' : List Char} :
    w' ∈ keysOf (bump m w) ↔ w' ∈ keysOf m ∨ w' = w := by
  rw [keysOf_bump_eq]
  by_cases hm : w ∈ keysOf m
  · rw [if_pos hm]
    constructor
    · exact fun h => Or.inl h
    · rintro (h | h)
      · exact h
      · exact h ▸ hm
  · rw [if_neg hm]
    simp

lemma nodup_keysOf_bump {m : List (List Char × Nat)} {w : List Char}
    (h : (keysOf m).Nodup) : (keysOf (bump m w)).Nodup := by
  rw [keysOf_bump_eq]
  by_cases hm : w ∈ keysOf m
  · rw [if_pos hm]; exact h
  · rw [if_neg hm]
    rw [List.nodup_append]
    refine ⟨h, List.nodup_singleton w, ?_⟩
    intro a ha hb
    rw [List.mem_singleton] at hb
    exact hm (hb ▸ ha)

lemma sumValues_bump : ∀ (m : List (List Char × Nat)) (w : List Char),
    sumValues (bump m w) = sumValues m + 1
  | [], w => by simp [bump, sumValues]
  | (k, v) :: m, w => by
    by_cases h : k = w
    · subst h
      simp only [bump, if_pos rfl]
      simp [sumValues]
      omega
    · rw [show bump ((k, v) :: m) w = (k, v) :: bump m w from by simp [bump, h]]
      simp only [sumValues, List.map_cons, List.sum_cons]
      have hs := sumValues_bump m w
      unfold sumValues at hs
      omega

lemma getCount_eq_zero_of_not_mem : ∀ (m : List (List Char × Nat)) (w : List Char),
    w ∉ keysOf m → getCount m w = 0
  | [], w => by simp [getCount]
  | (k, v) :: m, w => by
    intro h
    rw [keysOf_cons, List.mem_cons] at h
    push_neg at h
    rw [getCount_cons, if_neg (fun hh => h.1 hh.symm)]
    exact getCount_eq_zero_of_not_mem m w h.2

lemma wSum_eq_zero_of_not_mem (m : List (List Char × Nat)) (w : List Char)
    (h : w ∉ keysOf m) : wSum m w = 0 := by
  unfold wSum
  rw [List.filter_eq_nil_iff.mpr]
  · rfl
  · intro e he
    simp only [decide_eq_true_eq]
    intro hh
    apply h
    unfold keysOf
    rw [← hh]
    exact List.mem_map_of_mem (fun x => x.1) he

lemma wSum_eq_getCount : ∀ (m : List (List Char × Nat)) (w : List Char),
    (keysOf m).Nodup → wSum m w = getCount m w
  | [], w, _ => rfl
  | (k, v) :: m, w, h => by
    rw [keysOf_cons] at h
    have hnd : (keysOf m).Nodup := (List.nodup_cons.mp h).2
    have hknot : k ∉ keysOf m := (List.nodup_cons.mp h).1
    by_cases hk : k = w
    · subst hk
      have h0 : wSum m k = 0 := wSum_eq_zero_of_not_mem m k hknot
      unfold wSum at h0 ⊢
      rw [List.filter_cons, if_pos (by simp), List.map_cons, List.sum_cons, h0]
      simp [getCount_cons]
    · unfold wSum
      rw [List.filter_cons, if_neg (by simpa using hk)]
      rw [getCount_cons, if_neg hk]
      exact wSum_eq_getCount m w hnd

lemma getCount_countFold :
    ∀ (ts : List (List Char)) (m : List (List Char × Nat)) (w : List Char), w ≠ [] →
      getCount (ts.foldl (fun m w => if w = [] then m else bump m w) m) w
        = getCount m w + ts.count w
  | [], m, w, _ => by simp
  | t :: ts, m, w, hw => by
    rw [List.foldl_cons, List.count_cons]
    by_cases ht : t = []
    · subst ht
      rw [if_pos rfl]
      rw [getCount_countFold ts m w hw]
      have hne : ¬(([] : List Char) == w) = true := by
        simpa using hw
      rw [if_neg hne]
      omega
    · rw [if_neg ht]
      by_cases htw : t = w
      · subst htw
        rw [getCount_countFold ts (bump m t) t hw, getCount_bump_self]
        simp only [beq_self_eq_true, if_pos]
        omega
      · rw [getCount_countFold ts (bump m t) w hw, getCount_bump_other (Ne.symm htw)]
        have hne : ¬((t == w) = true) := by simpa using htw
        rw [if_neg hne]
        omega

lemma getCount_countFold_nil :
    ∀ (ts : List (List Char)) (m : List (List Char × Nat)),
      getCount (ts.foldl (fun m w => if w = [] then m else bump m w) m) []
        = getCount m []
  | [], m => by simp
  | t :: ts, m => by
    rw [List.foldl_cons]
    by_cases ht : t = []
    · rw [if_pos ht]
      exact getCount_countFold_nil ts m
    · rw [if_neg ht]
      rw [getCount_countFold_nil ts (bump m t)]
      exact getCount_bump_other (Ne.symm ht) m

lemma mem_keysOf_countFold :
    ∀ (ts : List (List Char)) (m : List (List Char × Nat)) (w : List Char),
      w ∈ keysOf (ts.foldl (fun m w => if w = [] then m else bump m w) m)
        ↔ w ∈ keysOf m ∨ (w ≠ [] ∧ w ∈ ts)
  | [], m, w => by simp
  | t :: ts, m, w => by
    rw [List.foldl_cons]
    by_cases ht : t = []
    · subst ht
      rw [if_pos rfl, mem_keysOf_countFold ts m w]
      constructor
      · rintro (h | h)
        · exact Or.inl h
        · exact Or.inr ⟨h.1, List.mem_cons_of_mem _ h.2⟩
      · rintro (h | ⟨h1, h2⟩)
        · exact Or.inl h
        · rcases List.mem_cons.mp h2 with h3 | h3
          · exact absurd h3 h1
          · exact Or.inr ⟨h1, h3⟩
    · rw [if_neg ht, mem_keysOf_countFold ts (bump m t) w]
      rw [mem_keysOf_bump]
      constructor
      · rintro ((h | h) | h)
        · exact Or.inl h
        · exact Or.inr ⟨h ▸ ht, h ▸ List.mem_cons_self _ _⟩
        · exact Or.inr ⟨h.1, List.mem_cons_of_mem _ h.2⟩
      · rintro (h | ⟨h1, h2⟩)
        · exact Or.inl (Or.inl h)
        · rcases List.mem_cons.mp h2 with h3 | h3
          · exact Or.inl (Or.inr h3)
          · exact Or.inr ⟨h1, h3⟩

lemma nodup_keysOf_countFold :
    ∀ (ts : List (List Char)) (m : List (List Char × Nat)),
      (keysOf m).Nodup →
      (keysOf (ts.foldl (fun m w => if w = [] then m else bump m w) m)).Nodup
  | [], m, h => h
  | t :: ts, m, h => by
    rw [List.foldl_cons]
    by_cases ht : t = []
    · rw [if_pos ht]
      exact nodup_keysOf_countFold ts m h
    · rw [if_neg ht]
      exact nodup_keysOf_countFold ts (bump m t) (nodup_keysOf_bump h)

lemma sumValues_countFold :
    ∀ (ts : List (List Char)) (m : List (List Char × Nat)),
      sumValues (ts.foldl (fun m w => if w = [] then m else bump m w) m)
        = sumValues m + (ts.filter (fun w => w ≠ [])).length
  | [], m => by simp
  | t :: ts, m => by
    rw [List.foldl_cons, List.filter_cons]
    by_cases ht : t = []
    · subst ht
      rw [if_pos rfl, if_neg (by simp)]
      exact sumValues_countFold ts m
    · rw [if_neg ht, if_pos (by simpa using ht)]
      rw [sumValues_countFold ts (bump m t), sumValues_bump]
      rw [List.length_cons]
      omega

lemma mapFunction_counts (c : Chunk) :
    (mapFunction c).counts =
      (jsSplitWs (jsToLower c.text)).foldl (fun m w => if w = [] then m else bump m w) [] := rfl

lemma mapFunction_mapperId (c : Chunk) : (mapFunction c).mapperId = c.id := rfl

lemma mapFunction_getCount (c : Chunk) (w : List Char) :
    getCount (mapFunction c).counts w = (tokensOf (jsToLower c.text)).count w := by
  rw [mapFunction_counts]
  by_cases hw : w = []
  · subst hw
    rw [getCount_countFold_nil]
    have : ([] : List Char) ∉ tokensOf (jsToLower c.text) := by
      intro h
      have := List.mem_filter.mp h
      simp at this
    rw [List.count_eq_zero.mpr this]
    rfl
  · rw [getCount_countFold _ _ w hw]
    unfold tokensOf
    rw [List.count_filter (by simpa using hw)]
    simp [getCount]

lemma mapFunction_mem_keys (c : Chunk) (w : List Char) :
    w ∈ keysOf (mapFunction c).counts ↔ w ∈ tokensOf (jsToLower c.text) := by
  rw [mapFunction_counts, mem_keysOf_countFold]
  unfold tokensOf
  rw [List.mem_filter]
  simp [keysOf]
  tauto

lemma mapFunction_nodup (c : Chunk) : (keysOf (mapFunction c).counts).Nodup := by
  rw [mapFunction_counts]
  exact nodup_keysOf_countFold _ [] (by simp [keysOf])

lemma mapFunction_sumValues (c : Chunk) :
    sumValues (mapFunction c).counts = (tokensOf (jsToLower c.text)).length := by
  rw [mapFunction_counts, sumValues_countFold]
  simp [sumValues, tokensOf]

/-! ### The shuffle group -/

lemma getGroup_cons (k : List Char) (vs : List Contribution)
    (g : List (List Char × List Contribution)) (w : List Char) :
    getGroup ((k, vs) :: g) w = if k = w then vs else getGroup g w := rfl

lemma getGroup_pushContrib_self : ∀ (g : List (List Char × List Contribution))
    (w : List Char) (c : Contribution),
    getGroup (pushContrib g w c) w = getGroup g w ++ [c]
  | [], w, c => by simp [pushContrib, getGroup]
  | (k, vs) :: g, w, c => by
    by_cases h : k = w
    · subst h
      simp [pushContrib, getGroup]
    · rw [show pushContrib ((k, vs) :: g) w c = (k, vs) :: pushContrib g w c from by
        simp [pushContrib, h]]
      rw [getGroup_cons, getGroup_cons, if_neg h, if_neg h]
      exact getGroup_pushContrib_self g w c

lemma getGroup_pushContrib_other {w' w : List Char} (h : w' ≠ w) :
    ∀ (g : List (List Char × List Contribution)) (c : Contribution),
      getGroup (pushContrib g w c) w' = getGroup g w'
  | [], c => by
    have hne : ¬(w = w') := fun hh => h hh.symm
    simp [pushContrib, getGroup, hne]
  | (k, vs) :: g, c => by
    by_cases hk : k = w
    · subst hk
      have hne : ¬(k = w') := fun hh => h hh.symm
      simp [pushContrib, getGroup_cons, if_neg hne]
    · rw [show pushContrib ((k, vs) :: g) w c = (k, vs) :: pushContrib g w c from by
        simp [pushContrib, hk]]
      rw [getGroup_cons, getGroup_cons]
      by_cases hk' : k = w'
      · rw [if_pos hk', if_pos hk']
      · rw [if_neg hk', if_neg hk']
        exact getGroup_pushContrib_other h g c

lemma keysOf_pushContrib_eq : ∀ (g : List (List Char × List Contribution))
    (w : List Char) (c : Contribution),
    keysOf (pushContrib g w c) = if w ∈ keysOf g then keysOf g else keysOf g ++ [w]
  | [], w, c => by simp [pushContrib, keysOf]
  | (k, vs) :: g, w, c => by
    by_cases h : k = w
    · subst h
      rw [show pushContrib ((k, vs) :: g) k c = (k, vs ++ [c]) :: g from by simp [pushContrib]]
      rw [keysOf_cons, keysOf_cons]
      rw [if_pos (List.mem_cons_self _ _)]
    · rw [show pushContrib ((k, vs) :: g) w c = (k, vs) :: pushContrib g w c from by
        simp [pushContrib, h]]
      rw [keysOf_cons, keysOf_cons, keysOf_pushContrib_eq g w c]
      have hwk : ¬(w = k) := fun hh => h hh.symm
      by_cases hm : w ∈ keysOf g
      · rw [if_pos hm, if_pos (List.mem_cons_of_mem _ hm)]
      · rw [if_neg hm, if_neg (by rw [List.mem_cons]; push_neg; exact ⟨hwk, hm⟩)]
        rfl

lemma mem_keysOf_pushContrib {g : List (List Char × List Contribution)}
    {w w' : List Char} {c : Contribution} :
    w' ∈ keysOf (pushContrib g w c) ↔ w' ∈ keysOf g ∨ w' = w := by
  rw [keysOf_pushContrib_eq]
  by_cases hm : w ∈ keysOf g
  · rw [if_pos hm]
    constructor
    · exact fun h => Or.inl h
    · rintro (h | h)
      · exact h
      · exact h ▸ hm
  · rw [if_neg hm]
    simp

lemma nodup_keysOf_pushContrib {g : List (List Char × List Contribution)}
    {w : List Char} {c : Contribution}
    (h : (keysOf g).Nodup) : (keysOf (pushContrib g w c)).Nodup := by
  rw [keysOf_pushContrib_eq]
  by_cases hm : w ∈ keysOf g
  · rw [if_pos hm]; exact h
  · rw [if_neg hm]
    rw [List.nodup_append]
    refine ⟨h, List.nodup_singleton w, ?_⟩
    intro a ha hb
    rw [List.mem_singleton] at hb
    exact hm (hb ▸ ha)

lemma spread_pushContrib : ∀ (g : List (List Char × List Contribution))
    (w : List Char) (c : Contribution),
    spread (pushContrib g w c) = spread g + c.count
  | [], w, c => by simp [pushContrib, spread, contribTotal]
  | (k, vs) :: g, w, c => by
    by_cases h : k = w
    · subst h
      rw [show pushContrib ((k, vs) :: g) k c = (k, vs ++ [c]) :: g from by simp [pushContrib]]
      simp only [spread, List.map_cons, List.sum_cons, contribTotal, List.map_append,
        List.sum_append, List.map_cons, List.sum_cons]
      simp
      omega
    · rw [show pushContrib ((k, vs) :: g) w c = (k, vs) :: pushContrib g w c from by
        simp [pushContrib, h]]
      simp only [spread, List.map_cons, List.sum_cons]
      have := spread_pushContrib g w c
      unfold spread at this
      omega

lemma getGroup_entriesFold : ∀ (es : List (List Char × Nat))
    (g : List (List Char × List Contribution)) (mid : Nat) (w : List Char),
    getGroup (es.foldl (fun g e => pushContrib g e.1 ⟨mid, e.2⟩) g) w
      = getGroup g w ++ (es.filter (fun e => e.1 = w)).map
          (fun e => (⟨mid, e.2⟩ : Contribution))
  | [], g, mid, w => by simp
  | e :: es, g, mid, w => by
    rw [List.foldl_cons, List.filter_cons]
    by_cases he : e.1 = w
    · rw [if_pos (by simpa using he)]
      rw [getGroup_entriesFold es _ mid w]
      rw [he, getGroup_pushContrib_self]
      rw [List.map_cons, List.append_assoc]
      rfl
    · rw [if_neg (by simpa using he)]
      rw [getGroup_entriesFold es _ mid w]
      rw [getGroup_pushContrib_other (fun hh => he hh.symm)]

lemma mem_keysOf_entriesFold : ∀ (es : List (List Char × Nat))
    (g : List (List Char × List Contribution)) (mid : Nat) (w : List Char),
    w ∈ keysOf (es.foldl (fun g e => pushContrib g e.1 ⟨mid, e.2⟩) g)
      ↔ w ∈ keysOf g ∨ ∃ e ∈ es, e.1 = w
  | [], g, mid, w => by simp
  | e :: es, g, mid, w => by
    rw [List.foldl_cons, mem_keysOf_entriesFold es _ mid w, mem_keysOf_pushContrib]
    constructor
    · rintro ((h | h) | h)
      · exact Or.inl h
      · exact Or.inr ⟨e, List.mem_cons_self _ _, h.symm⟩
      · obtain ⟨e', he', hw⟩ := h
        exact Or.inr ⟨e', List.mem_cons_of_mem _ he', hw⟩
    · rintro (h | ⟨e', he', hw⟩)
      · exact Or.inl (Or.inl h)
      · rcases List.mem_cons.mp he' with h3 | h3
        · exact Or.inl (Or.inr (h3 ▸ hw).symm)
        · exact Or.inr ⟨e', h3, hw⟩

lemma nodup_keysOf_entriesFold : ∀ (es : List (List Char × Nat))
    (g : List (List Char × List Contribution)) (mid : Nat),
    (keysOf g).Nodup →
    (keysOf (es.foldl (fun g e => pushContrib g e.1 ⟨mid, e.2⟩) g)).Nodup
  | [], g, mid, h => h
  | e :: es, g, mid, h => by
    rw [List.foldl_cons]
    exact nodup_keysOf_entriesFold es _ mid (nodup_keysOf_pushContrib h)

lemma spread_entriesFold : ∀ (es : List (List Char × Nat))
    (g : List (List Char × List Contribution)) (mid : Nat),
    spread (es.foldl (fun g e => pushContrib g e.1 ⟨mid, e.2⟩) g)
      = spread g + sumValues es
  | [], g, mid => by simp [sumValues]
  | e :: es, g, mid => by
    rw [List.foldl_cons, spread_entriesFold es _ mid, spread_pushContrib]
    simp only [sumValues, List.map_cons, List.sum_cons]
    omega

lemma getGroup_outerFold : ∀ (l : List MapResult)
    (g : List (List Char × List Contribution)) (w : List Char),
    getGroup (l.foldl
        (fun g out => out.counts.foldl (fun g e => pushContrib g e.1 ⟨out.mapperId, e.2⟩) g)
        g) w
      = getGroup g w ++ l.flatMap
          (fun o => (o.counts.filter (fun e => e.1 = w)).map
            (fun e => (⟨o.mapperId, e.2⟩ : Contribution)))
  | [], g, w => by simp
  | o :: l, g, w => by
    rw [List.foldl_cons, getGroup_outerFold l _ w, getGroup_entriesFold,
      List.flatMap_cons, List.append_assoc]

lemma getGroup_shufflePhase (l : List MapResult) (w : List Char) :
    getGroup (shufflePhase l) w
      = l.flatMap (fun o => (o.counts.filter (fun e => e.1 = w)).map
          (fun e => (⟨o.mapperId, e.2⟩ : Contribution))) := by
  unfold shufflePhase
  rw [getGroup_outerFold]
  rfl

lemma mem_keysOf_outerFold : ∀ (l : List MapResult)
    (g : List (List Char × List Contribution)) (w : List Char),
    w ∈ keysOf (l.foldl
        (fun g out => out.counts.foldl (fun g e => pushContrib g e.1 ⟨out.mapperId, e.2⟩) g)
        g)
      ↔ w ∈ keysOf g ∨ ∃ o ∈ l, ∃ e ∈ o.counts, e.1 = w
  | [], g, w => by simp
  | o :: l, g, w => by
    rw [List.foldl_cons, mem_keysOf_outerFold l _ w, mem_keysOf_entriesFold]
    constructor
    · rintro ((h | h) | h)
      · exact Or.inl h
      · exact Or.inr ⟨o, List.mem_cons_self _ _, h⟩
      · obtain ⟨o', ho', hw⟩ := h
        exact Or.inr ⟨o', List.mem_cons_of_mem _ ho', hw⟩
    · rintro (h | ⟨o', ho', hw⟩)
      · exact Or.inl (Or.inl h)
      · rcases List.mem_cons.mp ho' with h3 | h3
        · exact Or.inl (Or.inr (h3 ▸ hw))
        · exact Or.inr ⟨o', h3, hw⟩

lemma mem_keysOf_shufflePhase (l : List MapResult) (w : List Char) :
    w ∈ keysOf (shufflePhase l) ↔ ∃ o ∈ l, ∃ e ∈ o.counts, e.1 = w := by
  unfold shufflePhase
  rw [mem_keysOf_outerFold]
  simp [keysOf]

lemma nodup_keysOf_shufflePhase (l : List MapResult) :
    (keysOf (shufflePhase l)).Nodup := by
  unfold shufflePhase
  generalize hg : ([] : List (List Char × List Contribution)) = g
  have hnd : (keysOf g).Nodup := by rw [← hg]; simp [keysOf]
  clear hg
  induction l generalizing g with
  | nil => exact hnd
  | cons o l ih =>
    rw [List.foldl_cons]
    exact ih _ (nodup_keysOf_entriesFold o.counts g o.mapperId hnd)

lemma spread_shufflePhase (l : List MapResult) :
    spread (shufflePhase l) = (l.map (fun o => sumValues o.counts)).sum := by
  unfold shufflePhase
  have hgen : ∀ (l : List MapResult) (g : List (List Char × List Contribution)),
      spread (l.foldl
          (fun g out => out.counts.foldl (fun g e => pushContrib g e.1 ⟨out.mapperId, e.2⟩) g)
          g)
        = spread g + (l.map (fun o => sumValues o.counts)).sum := by
    intro l
    induction l with
    | nil => intro g; simp
    | cons o l ih =>
      intro g
      rw [List.foldl_cons, ih, spread_entriesFold]
      simp only [List.map_cons, List.sum_cons]
      omega
  rw [hgen]
  simp [spread]

lemma groupSum_shufflePhase (l : List MapResult) (w : List Char) :
    groupSum (shufflePhase l) w = (l.map (fun o => wSum o.counts w)).sum := by
  unfold groupSum
  rw [getGroup_shufflePhase]
  induction l with
  | nil => simp
  | cons o l ih =>
    rw [List.flatMap_cons, List.map_append, List.sum_append, ih]
    simp only [List.map_cons, List.sum_cons]
    congr 1
    unfold wSum
    rw [List.map_map]
    rfl

/-! ### The final merge -/

lemma setKey_append_of_not_mem : ∀ (m : List (List Char × Nat)) (w : List Char) (c : Nat),
    w ∉ keysOf m → setKey m w c = m ++ [(w, c)]
  | [], w, c, _ => rfl
  | (k, v) :: m, w, c, h => by
    rw [keysOf_cons, List.mem_cons] at h
    push_neg at h
    rw [show setKey ((k, v) :: m) w c = if k = w then (k, c) :: m else (k, v) :: setKey m w c
      from rfl]
    rw [if_neg (fun hh => h.1 hh.symm)]
    rw [setKey_append_of_not_mem m w c h.2]
    rfl

lemma foldl_setKey_eq_append : ∀ (rs : List ReduceResult) (f : List (List Char × Nat)),
    (rs.map (·.word)).Nodup → (∀ r ∈ rs, r.word ∉ keysOf f) →
    rs.foldl (fun final out => setKey final out.word out.count) f
      = f ++ rs.map (fun r => (r.word, r.count))
  | [], f, _, _ => by simp
  | r :: rs, f, hnd, hdisj => by
    rw [List.foldl_cons]
    rw [setKey_append_of_not_mem f r.word r.count (hdisj r (List.mem_cons_self _ _))]
    rw [List.map_cons] at hnd
    have hnd' := (List.nodup_cons.mp hnd).2
    have hhead := (List.nodup_cons.mp hnd).1
    rw [foldl_setKey_eq_append rs _ hnd' ?_]
    · rw [List.append_assoc]
      rfl
    · intro r' hr'
      unfold keysOf
      rw [List.map_append, List.mem_append]
      push_neg
      constructor
      · exact hdisj r' (List.mem_cons_of_mem _ hr')
      · intro hmem
        simp only [List.map_cons, List.map_nil, List.mem_singleton] at hmem
        exact hhead (hmem ▸ List.mem_map_of_mem (·.word) hr')

lemma reduceFunction_count (w : List Char) (vs : List Contribution) :
    (reduceFunction w vs).count = (vs.map (·.count)).sum := by
  unfold reduceFunction
  rw [List.sum_eq_foldl, List.foldl_map]

lemma runMapReduce_eq (text : List Char) (n : Nat) :
    runMapReduce text n =
      (shufflePhase ((splitTextIntoChunks text n).map mapFunction)).map
        (fun e => (e.1, (e.2.map (·.count)).sum)) := by
  simp only [runMapReduce]
  rw [foldl_setKey_eq_append _ [] ?hnd ?hdisj]
  · rw [List.nil_append, List.map_map]
    apply List.map_congr_left
    intro e he
    simp only [Function.comp_apply]
    rw [reduceFunction_count]
    rfl
  case hnd =>
    have : ((shufflePhase ((splitTextIntoChunks text n).map mapFunction)).map
        (fun e => reduceFunction e.1 e.2)).map (·.word)
        = keysOf (shufflePhase ((splitTextIntoChunks text n).map mapFunction)) := by
      rw [List.map_map]
      rfl
    rw [this]
    exact nodup_keysOf_shufflePhase _
  case hdisj =>
    intro r hr
    simp [keysOf]

lemma getCount_map_total : ∀ (g : List (List Char × List Contribution)) (w : List Char),
    getCount (g.map (fun e => (e.1, (e.2.map (·.count)).sum))) w = groupSum g w
  | [], w => rfl
  | (k, vs) :: g, w => by
    have hstep : ((k, vs) :: g).map (fun e => (e.1, (e.2.map (·.count)).sum))
        = (k, (vs.map (·.count)).sum)
            :: g.map (fun e => (e.1, (e.2.map (·.count)).sum)) := rfl
    rw [hstep, getCount_cons]
    unfold groupSum
    rw [getGroup_cons]
    by_cases h : k = w
    · rw [if_pos h, if_pos h]
    · rw [if_neg h, if_neg h]
      exact getCount_map_total g w

lemma keysOf_map_total (g : List (List Char × List Contribution)) :
    keysOf (g.map (fun e => (e.1, (e.2.map (·.count)).sum))) = keysOf g := by
  unfold keysOf
  rw [List.map_map]
  rfl

lemma sumValues_map_total (g : List (List Char × List Contribution)) :
    sumValues (g.map (fun e => (e.1, (e.2.map (·.count)).sum))) = spread g := by
  unfold sumValues spread contribTotal
  rw [List.map_map]
  rfl

lemma tokensOf_lower_join (slice : List (List Char)) (hne : slice ≠ [])
    (hws : ∀ w ∈ slice, w ≠ [] ∧ ∀ a ∈ w, isWs a = false) :
    tokensOf (jsToLower (jsJoinSpace slice)) = slice.map jsToLower := by
  rw [jsToLower_jsJoinSpace]
  apply tokensOf_jsJoinSpace
  · simpa using hne
  · intro w' hw'
    obtain ⟨w, hw, rfl⟩ := List.mem_map.mp hw'
    refine ⟨by simpa [jsToLower] using (hws w hw).1, ?_⟩
    intro a ha
    simp only [jsToLower] at ha
    obtain ⟨b, hb, rfl⟩ := List.mem_map.mp ha
    rw [isWs_toLower]
    exact (hws w hw).2 b hb

lemma chunks_lower_tokens {text : List Char} (h : jsTrim text ≠ []) (n : Nat) (hn : 1 ≤ n) :
    (splitTextIntoChunks text n).map (fun c => tokensOf (jsToLower c.text)) =
      (chunkList (((tokensOf text).length + n - 1) / n) n (tokensOf text)).map
        (fun slice => slice.map jsToLower) := by
  have hW := words_eq_tokensOf h
  have hwords := tokensOf_words_spec h
  have hk : 1 ≤ ((tokensOf text).length + n - 1) / n := ceil_pos hn (tokensOf_length_pos h)
  have h1 : (splitTextIntoChunks text n).map (·.text) =
      (chunkList (((tokensOf text).length + n - 1) / n) n (tokensOf text)).map jsJoinSpace := by
    rw [splitTextIntoChunks_map_text, hW]
  have h2 : (splitTextIntoChunks text n).map (fun c => tokensOf (jsToLower c.text))
      = ((splitTextIntoChunks text n).map (·.text)).map (fun t => tokensOf (jsToLower t)) := by
    rw [List.map_map]
    rfl
  rw [h2, h1, List.map_map]
  apply List.map_congr_left
  intro slice hslice
  have hne := chunkList_mem_ne_nil hk n (tokensOf text) slice hslice
  have hcond : ∀ w ∈ slice, w ≠ [] ∧ ∀ a ∈ w, isWs a = false := by
    intro w hw
    exact hwords w (mem_of_mem_chunkList n (tokensOf text) slice hslice w hw)
  show tokensOf (jsToLower (jsJoinSpace slice)) = slice.map jsToLower
  exact tokensOf_lower_join slice hne hcond

lemma chunks_lower_flatten {text : List Char} (h : jsTrim text ≠ []) (n : Nat) (hn : 1 ≤ n) :
    ((splitTextIntoChunks text n).map (fun c => tokensOf (jsToLower c.text))).flatten
      = (tokensOf text).map jsToLower := by
  rw [chunks_lower_tokens h n hn]
  rw [show (fun slice : List (List Char) => slice.map jsToLower)
      = List.map jsToLower from rfl]
  rw [← List.map_flatten]
  rw [chunkList_join _ n _ (ceil_le_mul hn)]

lemma runMapReduce_getCount {text : List Char} {n : Nat} (h : jsTrim text ≠ [])
    (hn : 1 ≤ n) (w : List Char) :
    getCount (runMapReduce text n) w = ((tokensOf text).map jsToLower).count w := by
  rw [runMapReduce_eq, getCount_map_total, groupSum_shufflePhase, List.map_map]
  have hcongr : ∀ c : Chunk,
      wSum (mapFunction c).counts w = (tokensOf (jsToLower c.text)).count w := by
    intro c
    rw [wSum_eq_getCount _ _ (mapFunction_nodup c), mapFunction_getCount]
  calc ((splitTextIntoChunks text n).map ((fun o => wSum o.counts w) ∘ mapFunction)).sum
      = ((splitTextIntoChunks text n).map
          (fun c => (tokensOf (jsToLower c.text)).count w)).sum := by
        congr 1
        apply List.map_congr_left
        intro c _
        exact hcongr c
    _ = (((splitTextIntoChunks text n).map
          (fun c => tokensOf (jsToLower c.text))).map (List.count w)).sum := by
        rw [List.map_map]
        rfl
    _ = (((splitTextIntoChunks text n).map
          (fun c => tokensOf (jsToLower c.text))).flatten).count w := by
        rw [List.count_flatten]
    _ = ((tokensOf text).map jsToLower).count w := by
        rw [chunks_lower_flatten h n hn]

lemma runMapReduce_mem_keys {text : List Char} {n : Nat} (h : jsTrim text ≠ [])
    (hn : 1 ≤ n) (w : List Char) :
    w ∈ keysOf (runMapReduce text n) ↔ w ∈ (tokensOf text).map jsToLower := by
  rw [runMapReduce_eq, keysOf_map_total, mem_keysOf_shufflePhase]
  constructor
  · rintro ⟨o, ho, e, he, hew⟩
    obtain ⟨c, hc, rfl⟩ := List.mem_map.mp ho
    have hkey : w ∈ keysOf (mapFunction c).counts := by
      unfold keysOf
      rw [← hew]
      exact List.mem_map_of_mem (fun x => x.1) he
    rw [mapFunction_mem_keys] at hkey
    have hmem : w ∈ ((splitTextIntoChunks text n).map
        (fun c => tokensOf (jsToLower c.text))).flatten :=
      List.mem_flatten.mpr ⟨_, List.mem_map_of_mem _ hc, hkey⟩
    rw [chunks_lower_flatten h n hn] at hmem
    exact hmem
  · intro hw
    rw [← chunks_lower_flatten h n hn] at hw
    obtain ⟨ts, hts, hwts⟩ := List.mem_flatten.mp hw
    obtain ⟨c, hc, rfl⟩ := List.mem_map.mp hts
    rw [← mapFunction_mem_keys] at hwts
    obtain ⟨e, he, hew⟩ := List.mem_map.mp hwts
    exact ⟨mapFunction c, List.mem_map_of_mem _ hc, e, he, hew⟩

lemma runMapReduce_nodup_keys (text : List Char) (n : Nat) :
    (keysOf (runMapReduce text n)).Nodup := by
  rw [runMapReduce_eq, keysOf_map_total]
  exact nodup_keysOf_shufflePhase _

lemma runMapReduce_sumValues {text : List Char} {n : Nat} (h : jsTrim text ≠ [])
    (hn : 1 ≤ n) :
    sumValues (runMapReduce text n) = (tokensOf text).length := by
  rw [runMapReduce_eq, sumValues_map_total, spread_shufflePhase, List.map_map]
  have hcongr : ∀ c : Chunk,
      sumValues (mapFunction c).counts = (tokensOf (jsToLower c.text)).length := by
    intro c
    exact mapFunction_sumValues c
  calc ((splitTextIntoChunks text n).map ((fun o => sumValues o.counts) ∘ mapFunction)).sum
      = ((splitTextIntoChunks text n).map
          (fun c => (tokensOf (jsToLower c.text)).length)).sum := by
        congr 1
        apply List.map_congr_left
        intro c _
        exact hcongr c
    _ = (((splitTextIntoChunks text n).map
          (fun c => tokensOf (jsToLower c.text))).map List.length).sum := by
        rw [List.map_map]
        rfl
    _ = (((splitTextIntoChunks text n).map
          (fun c => tokensOf (jsToLower c.text))).flatten).length := by
        rw [List.length_flatten]
    _ = ((tokensOf text).map jsToLower).length := by
        rw [chunks_lower_flatten h n hn]
    _ = (tokensOf text).length := List.length_map _ _

/-! ### Entry invariants of the word-count dictionary -/

lemma bump_entries_inv (P : List Char → Prop) :
    ∀ (m : List (List Char × Nat)) (w : List Char),
      (∀ e ∈ m, P e.1 ∧ 1 ≤ e.2) → P w → ∀ e ∈ bump m w, P e.1 ∧ 1 ≤ e.2
  | [], w, _, hw => by
    intro e he
    simp only [bump, List.mem_singleton] at he
    subst he
    exact ⟨hw, le_refl 1⟩
  | (k, v) :: m, w, hm, hw => by
    by_cases h : k = w
    · subst h
      rw [show bump ((k, v) :: m) k = (k, v + 1) :: m from by simp [bump]]
      intro e he
      rcases List.mem_cons.mp he with h1 | h1
      · subst h1
        exact ⟨(hm (k, v) (List.mem_cons_self _ _)).1, by omega⟩
      · exact hm e (List.mem_cons_of_mem _ h1)
    · rw [show bump ((k, v) :: m) w = (k, v) :: bump m w from by simp [bump, h]]
      intro e he
      rcases List.mem_cons.mp he with h1 | h1
      · subst h1
        exact hm (k, v) (List.mem_cons_self _ _)
      · exact bump_entries_inv P m w (fun e' he' => hm e' (List.mem_cons_of_mem _ he')) hw e h1

lemma countFold_entries_inv (P : List Char → Prop) :
    ∀ (ts : List (List Char)) (m : List (List Char × Nat)),
      (∀ e ∈ m, P e.1 ∧ 1 ≤ e.2) → (∀ t ∈ ts, t ≠ [] → P t) →
      ∀ e ∈ ts.foldl (fun m w => if w = [] then m else bump m w) m, P e.1 ∧ 1 ≤ e.2
  | [], m, hm, _ => hm
  | t :: ts, m, hm, hts => by
    rw [List.foldl_cons]
    by_cases ht : t = []
    · rw [if_pos ht]
      exact countFold_entries_inv P ts m hm
        (fun t' ht' => hts t' (List.mem_cons_of_mem _ ht'))
    · rw [if_neg ht]
      exact countFold_entries_inv P ts (bump m t)
        (bump_entries_inv P m t hm (hts t (List.mem_cons_self _ _) ht))
        (fun t' ht' => hts t' (List.mem_cons_of_mem _ ht'))

lemma jsToLower_fixed_of_mem {s : List Char} {w : List Char}
    (hw : w ∈ jsSplitWs (jsToLower s)) : jsToLower w = w := by
  have hchar : ∀ a ∈ w, Char.toLower a = a := by
    intro a ha
    have hmem : a ∈ jsToLower s := (mem_jsSplitWs (jsToLower s) w hw a ha).1
    simp only [jsToLower] at hmem
    obtain ⟨b, _, rfl⟩ := List.mem_map.mp hmem
    exact toLower_idem b
  unfold jsToLower
  calc w.map Char.toLower = w.map id := List.map_congr_left hchar
    _ = w := List.map_id w

/-! ### Claim theorems -/

/-- C1: for every input text and every mapper count n ≥ 1, concatenating the
whitespace-tokenized word sequences of the chunk texts returned by
splitTextIntoChunks, in chunk-index order, reproduces exactly the
whitespace-tokenized word sequence of the original text. -/
theorem C1_chunk_concat_preserves_words (text : List Char) (n : Nat) (hn : 1 ≤ n) :
    ((splitTextIntoChunks text n).map (fun c => tokensOf c.text)).flatten
      = tokensOf text := by
  by_cases h : jsTrim text = []
  · rw [splitTextIntoChunks_ws_only hn h]
    rw [tokensOf_all_ws ((jsTrim_eq_nil_iff text).mp h)]
    rfl
  · exact chunk_words_flatten h hn

/-- Witness for C1 at a concrete five-word text with three mappers. -/
theorem C1_witness :
    1 ≤ 3 ∧
    ((splitTextIntoChunks "one two three four five".toList 3).map
        (fun c => tokensOf c.text)).flatten
      = tokensOf "one two three four five".toList :=
  ⟨by decide, C1_chunk_concat_preserves_words "one two three four five".toList 3 (by decide)⟩

/-- C2: the full pipeline on
"hello world hello distributed systems mapreduce world" with mapperCount = 3
produces FinalCounts {hello: 2, world: 2, distributed: 1, systems: 1,
mapreduce: 1} (in first-appearance order, as the source's dictionaries
enumerate), whose values total 7. -/
theorem C2_scenario :
    runMapReduce "hello world hello distributed systems mapreduce world".toList 3 =
      [("hello".toList, 2), ("world".toList, 2), ("distributed".toList, 1),
       ("systems".toList, 1), ("mapreduce".toList, 1)] ∧
    sumValues
      (runMapReduce "hello world hello distributed systems mapreduce world".toList 3) = 7 :=
  ⟨by decide, by decide⟩

/-- C3: for every non-empty input text and every n ≥ 1, the sum of the
FinalCounts values produced by the pipeline (whose MapResults come from the
complete, non-overlapping partition produced by splitTextIntoChunks) equals
the total whitespace-tokenized word count of the input. -/
theorem C3_final_counts_total (text : List Char) (n : Nat)
    (_hne : text ≠ []) (hn : 1 ≤ n) :
    sumValues (runMapReduce text n) = (tokensOf text).length := by
  by_cases h : jsTrim text = []
  · rw [runMapReduce_ws_only hn h, tokensOf_all_ws ((jsTrim_eq_nil_iff text).mp h)]
    rfl
  · exact runMapReduce_sumValues h hn

/-- Witness for C3 at a concrete three-word text with two mappers. -/
theorem C3_witness :
    ("a b b".toList ≠ [] ∧ 1 ≤ 2) ∧
    sumValues (runMapReduce "a b b".toList 2) = (tokensOf "a b b".toList).length :=
  ⟨⟨by decide, by decide⟩, C3_final_counts_total "a b b".toList 2 (by decide) (by decide)⟩

/-- C5 counterexample: the claim says splitting empty input fails with
EmptyInputError and a mapper count of 0 fails with InvalidConfigError.  The
embedded splitTextIntoChunks is total — the source has no validation or error
path: on the empty text it returns the single chunk {id: 0, text: ""}, and
with mapper count 0 its loop never runs and it returns no chunks. -/
theorem C5_counterexample :
    splitTextIntoChunks "".toList 3 = [{ id := 0, text := [] }] ∧
    splitTextIntoChunks "a b".toList 0 = [] :=
  ⟨by decide, by decide⟩

/-- C5 (amended): splitting an empty or whitespace-only text with any n ≥ 1
does not fail: it returns the single chunk {id: 0, text: ""}; splitting with
mapper count 0 does not fail: it returns no chunks.  The source performs no
input validation (its UI merely disables the button for blank input), so no
EmptyInputError or InvalidConfigError exists and nothing prevents a caller
from reaching these cases. -/
theorem C5_amended_no_validation (text : List Char) (n : Nat) (hn : 1 ≤ n)
    (hws : ∀ a ∈ text, isWs a = true) :
    splitTextIntoChunks text n = [{ id := 0, text := [] }] ∧
    splitTextIntoChunks text 0 = [] := by
  constructor
  · exact splitTextIntoChunks_ws_only hn ((jsTrim_eq_nil_iff text).mpr hws)
  · rfl

/-- Witness for the amended C5 at a whitespace-only text with three mappers. -/
theorem C5_witness :
    (1 ≤ 3 ∧ ∀ a ∈ "  ".toList, isWs a = true) ∧
    (splitTextIntoChunks "  ".toList 3 = [{ id := 0, text := [] }] ∧
     splitTextIntoChunks "  ".toList 0 = []) :=
  ⟨⟨by decide, by decide⟩, C5_amended_no_validation "  ".toList 3 (by decide) (by decide)⟩

/-- C10: for every n ≥ 1, splitTextIntoChunks on an empty or whitespace-only
text does not fail: it returns exactly the one chunk {id: 0, text: ""}, and
the full pipeline on that input completes with an empty FinalCounts
dictionary. -/
theorem C10_degenerate_input (text : List Char) (n : Nat) (hn : 1 ≤ n)
    (hws : ∀ a ∈ text, isWs a = true) :
    splitTextIntoChunks text n = [{ id := 0, text := [] }] ∧
    runMapReduce text n = [] := by
  have h : jsTrim text = [] := (jsTrim_eq_nil_iff text).mpr hws
  exact ⟨splitTextIntoChunks_ws_only hn h, runMapReduce_ws_only hn h⟩

/-- Witness for C10 at the empty text with five mappers. -/
theorem C10_witness :
    (1 ≤ 5 ∧ ∀ a ∈ "".toList, isWs a = true) ∧
    (splitTextIntoChunks "".toList 5 = [{ id := 0, text := [] }] ∧
     runMapReduce "".toList 5 = []) :=
  ⟨⟨by decide, by decide⟩, C10_degenerate_input "".toList 5 (by decide) (by decide)⟩

/-- C6: for every list of MapResults and every word w, the ShuffleGroup
returned by shufflePhase totals for w exactly the counts recorded for w
across all input MapResults, no word present in any MapResult is absent from
the result, and no count is altered: the group of w is exactly the
(mapperId, count) pairs copied unchanged, in traversal order, from the
entries keyed by w. -/
theorem C6_shuffle_preserves_counts (l : List MapResult) (w : List Char) :
    groupSum (shufflePhase l) w = (l.map (fun o => wSum o.counts w)).sum ∧
    ((∃ o ∈ l, w ∈ keysOf o.counts) → w ∈ keysOf (shufflePhase l)) ∧
    getGroup (shufflePhase l) w
      = l.flatMap (fun o => (o.counts.filter (fun e => e.1 = w)).map
          (fun e => (⟨o.mapperId, e.2⟩ : Contribution))) := by
  refine ⟨groupSum_shufflePhase l w, ?_, getGroup_shufflePhase l w⟩
  rintro ⟨o, ho, hw⟩
  rw [mem_keysOf_shufflePhase]
  unfold keysOf at hw
  obtain ⟨e, he, hew⟩ := List.mem_map.mp hw
  exact ⟨o, ho, e, he, hew⟩

/-- Witness for C6 at two concrete MapResults sharing the word "a". -/
theorem C6_witness :
    groupSum (shufflePhase ([⟨0, [(['a'], 1)]⟩, ⟨1, [(['a'], 2)]⟩] : List MapResult)) ['a']
        = (([⟨0, [(['a'], 1)]⟩, ⟨1, [(['a'], 2)]⟩] : List MapResult).map
            (fun o => wSum o.counts ['a'])).sum ∧
    ((∃ o ∈ ([⟨0, [(['a'], 1)]⟩, ⟨1, [(['a'], 2)]⟩] : List MapResult),
        ['a'] ∈ keysOf o.counts) →
      ['a'] ∈ keysOf (shufflePhase ([⟨0, [(['a'], 1)]⟩, ⟨1, [(['a'], 2)]⟩] : List MapResult))) ∧
    getGroup (shufflePhase ([⟨0, [(['a'], 1)]⟩, ⟨1, [(['a'], 2)]⟩] : List MapResult)) ['a']
      = ([⟨0, [(['a'], 1)]⟩, ⟨1, [(['a'], 2)]⟩] : List MapResult).flatMap
          (fun o => (o.counts.filter (fun e => e.1 = ['a'])).map
            (fun e => (⟨o.mapperId, e.2⟩ : Contribution))) :=
  C6_shuffle_preserves_counts _ ['a']

/-- C7 counterexample: shufflePhase is not invariant under permutation of its
input list.  Swapping two MapResults that both count the word "x" permutes the
ordered contribution list held for "x", so the two ShuffleGroups differ even
though the inputs are permutations of each other. -/
theorem C7_counterexample :
    (([⟨1, [(['x'], 1)]⟩, ⟨0, [(['x'], 1)]⟩] : List MapResult).Perm
        [⟨0, [(['x'], 1)]⟩, ⟨1, [(['x'], 1)]⟩]) ∧
    shufflePhase ([⟨1, [(['x'], 1)]⟩, ⟨0, [(['x'], 1)]⟩] : List MapResult)
      ≠ shufflePhase ([⟨0, [(['x'], 1)]⟩, ⟨1, [(['x'], 1)]⟩] : List MapResult) :=
  ⟨by decide, by decide⟩

/-- C7 (amended): shufflePhase applied to a permutation of a MapResults list
returns a ShuffleGroup with the same keys and, for every word, the same total
count; the ordered per-word contribution lists (and the key order) may differ,
so only these order-insensitive observations — the ones the reducers'
commutative sums consume — are permutation invariant. -/
theorem C7_amended_permutation (l1 l2 : List MapResult) (hp : l1.Perm l2) (w : List Char) :
    groupSum (shufflePhase l1) w = groupSum (shufflePhase l2) w ∧
    (w ∈ keysOf (shufflePhase l1) ↔ w ∈ keysOf (shufflePhase l2)) := by
  constructor
  · rw [groupSum_shufflePhase, groupSum_shufflePhase]
    exact List.Perm.sum_eq (hp.map _)
  · rw [mem_keysOf_shufflePhase, mem_keysOf_shufflePhase]
    constructor
    · rintro ⟨o, ho, hrest⟩
      exact ⟨o, hp.mem_iff.mp ho, hrest⟩
    · rintro ⟨o, ho, hrest⟩
      exact ⟨o, hp.mem_iff.mpr ho, hrest⟩

/-- Witness for the amended C7 at a concrete transposition. -/
theorem C7_witness :
    (([⟨1, [(['x'], 1)]⟩, ⟨0, [(['x'], 1)]⟩] : List MapResult).Perm
        [⟨0, [(['x'], 1)]⟩, ⟨1, [(['x'], 1)]⟩]) ∧
    (groupSum (shufflePhase ([⟨1, [(['x'], 1)]⟩, ⟨0, [(['x'], 1)]⟩] : List MapResult)) ['x']
        = groupSum (shufflePhase ([⟨0, [(['x'], 1)]⟩, ⟨1, [(['x'], 1)]⟩] : List MapResult)) ['x'] ∧
      (['x'] ∈ keysOf (shufflePhase ([⟨1, [(['x'], 1)]⟩, ⟨0, [(['x'], 1)]⟩] : List MapResult))
        ↔ ['x'] ∈ keysOf (shufflePhase ([⟨0, [(['x'], 1)]⟩, ⟨1, [(['x'], 1)]⟩] : List MapResult)))) :=
  ⟨by decide, C7_amended_permutation _ _ (by decide) ['x']⟩

/-- C8: for every chunk, every word key in the counts dictionary of the
MapResult returned by mapFunction is a non-empty, lower-cased string
(lower-casing it changes nothing), and its associated count is at least 1. -/
theorem C8_mapper_key_invariant (chunk : Chunk) (w : List Char) (c : Nat)
    (h : (w, c) ∈ (mapFunction chunk).counts) :
    w ≠ [] ∧ jsToLower w = w ∧ 1 ≤ c := by
  rw [mapFunction_counts] at h
  have hinv := countFold_entries_inv (fun t => t ≠ [] ∧ jsToLower t = t)
    (jsSplitWs (jsToLower chunk.text)) [] (by simp)
    (fun t ht htne => ⟨htne, jsToLower_fixed_of_mem ht⟩) (w, c) h
  exact ⟨hinv.1.1, hinv.1.2, hinv.2⟩

/-- Witness for C8 at a concrete mixed-case chunk. -/
theorem C8_witness :
    (("hello".toList, 2) ∈ (mapFunction { id := 0, text := "Hello hello".toList }).counts) ∧
    ("hello".toList ≠ [] ∧ jsToLower "hello".toList = "hello".toList ∧ 1 ≤ 2) :=
  ⟨by decide, C8_mapper_key_invariant { id := 0, text := "Hello hello".toList }
    "hello".toList 2 (by decide)⟩

/-- C9: for every input text containing at least one non-whitespace character
and every n ≥ 1, the FinalCounts produced by the full pipeline maps each
distinct lower-cased word of the whitespace-tokenized input to exactly its
number of occurrences in that lower-cased tokenization, and contains no other
entries (its keys are exactly those words, without duplicates). -/
theorem C9_final_counts_exact (text : List Char) (n : Nat)
    (h : ∃ a ∈ text, isWs a = false) (hn : 1 ≤ n) (w : List Char) :
    getCount (runMapReduce text n) w = ((tokensOf text).map jsToLower).count w ∧
    (w ∈ keysOf (runMapReduce text n) ↔ w ∈ (tokensOf text).map jsToLower) ∧
    (keysOf (runMapReduce text n)).Nodup := by
  have htrim : jsTrim text ≠ [] := by
    intro hz
    obtain ⟨a, ha, hws⟩ := h
    have hture := (jsTrim_eq_nil_iff text).mp hz a ha
    rw [hture] at hws
    exact absurd hws (by decide)
  exact ⟨runMapReduce_getCount htrim hn w, runMapReduce_mem_keys htrim hn w,
    runMapReduce_nodup_keys text n⟩

/-- Witness for C9 at a concrete mixed-case two-mapper run. -/
theorem C9_witness :
    ((∃ a ∈ "Ab ab cd".toList, isWs a = false) ∧ 1 ≤ 2) ∧
    (getCount (runMapReduce "Ab ab cd".toList 2) "ab".toList
        = ((tokensOf "Ab ab cd".toList).map jsToLower).count "ab".toList ∧
      ("ab".toList ∈ keysOf (runMapReduce "Ab ab cd".toList 2)
        ↔ "ab".toList ∈ (tokensOf "Ab ab cd".toList).map jsToLower) ∧
      (keysOf (runMapReduce "Ab ab cd".toList 2)).Nodup) :=
  ⟨⟨by decide, by decide⟩,
    C9_final_counts_exact "Ab ab cd".toList 2 (by decide) (by decide) "ab".toList⟩

/-- C4: for every input text with at least one word and every n ≥ 1, every
chunk produced by splitTextIntoChunks has exactly
chunkSize = ceil(wordCount / n) words except possibly a shorter (but
non-empty) last chunk; the chunk count never exceeds n, and when n exceeds the
word count the trailing requested chunks with no remaining words are omitted,
so exactly wordCount single-word chunks remain (in particular n = 10 on a
four-word input yields exactly 4 one-word chunks, as the witness shows). -/
theorem C4_chunk_sizes (text : List Char) (n : Nat)
    (hwc : 1 ≤ (tokensOf text).length) (hn : 1 ≤ n) :
    (∀ c ∈ (splitTextIntoChunks text n).dropLast,
        (tokensOf c.text).length = ((tokensOf text).length + n - 1) / n) ∧
    (∀ c, (splitTextIntoChunks text n).getLast? = some c →
        1 ≤ (tokensOf c.text).length ∧
        (tokensOf c.text).length ≤ ((tokensOf text).length + n - 1) / n) ∧
    (splitTextIntoChunks text n).length ≤ n ∧
    ((tokensOf text).length < n →
        (splitTextIntoChunks text n).length = (tokensOf text).length) := by
  have h : jsTrim text ≠ [] := jsTrim_ne_nil_of_tokens hwc
  have hW := words_eq_tokensOf h
  have hwords := tokensOf_words_spec h
  have hk1 : 1 ≤ ((tokensOf text).length + n - 1) / n := ceil_pos hn hwc
  have h1 : (splitTextIntoChunks text n).map (·.text)
      = (chunkList (((tokensOf text).length + n - 1) / n) n (tokensOf text)).map
          jsJoinSpace := by
    rw [splitTextIntoChunks_map_text, hW]
  have hslice : ∀ slice ∈ chunkList (((tokensOf text).length + n - 1) / n) n (tokensOf text),
      tokensOf (jsJoinSpace slice) = slice := by
    intro slice hs
    exact tokensOf_jsJoinSpace slice (chunkList_mem_ne_nil hk1 n _ slice hs)
      (fun w hw => hwords w (mem_of_mem_chunkList n _ slice hs w hw))
  refine ⟨?_, ?_, ?_, ?_⟩
  · intro c hc
    have hct : c.text ∈ ((splitTextIntoChunks text n).map (·.text)).dropLast := by
      rw [← List.map_dropLast]
      exact List.mem_map_of_mem _ hc
    rw [h1, ← List.map_dropLast] at hct
    obtain ⟨slice, hsl, heq⟩ := List.mem_map.mp hct
    have hsl' : slice ∈ chunkList (((tokensOf text).length + n - 1) / n) n (tokensOf text) :=
      (List.dropLast_sublist _).subset hsl
    rw [← heq, hslice slice hsl']
    exact chunkList_dropLast_length n (tokensOf text) slice hsl
  · intro c hc
    have hct : ((splitTextIntoChunks text n).map (·.text)).getLast? = some c.text := by
      rw [List.getLast?_map, hc]
      rfl
    rw [h1, List.getLast?_map] at hct
    obtain ⟨slice, hsl, heq⟩ := Option.map_eq_some'.mp hct
    have hslmem : slice ∈ chunkList (((tokensOf text).length + n - 1) / n) n (tokensOf text) :=
      List.mem_of_mem_getLast? hsl
    have hlen := chunkList_getLast?_length hk1 n (tokensOf text)
      (List.length_pos.mp (by omega)) slice hsl
    have htok : tokensOf c.text = slice := by
      rw [← heq]
      exact hslice slice hslmem
    rw [htok]
    exact hlen
  · have hfm : (splitTextIntoChunks text n).length ≤ (List.range n).length := by
      simp only [splitTextIntoChunks]
      exact List.length_filterMap_le _ _
    rw [List.length_range] at hfm
    exact hfm
  · intro hlt
    have hone : ((tokensOf text).length + n - 1) / n = 1 := ceil_eq_one hwc (by omega)
    have hlen : (splitTextIntoChunks text n).length
        = ((splitTextIntoChunks text n).map (·.text)).length := (List.length_map _ _).symm
    rw [hlen, h1, hone, List.length_map, chunkList_one_length]
    omega

/-- Witness for C4: ten mappers on a four-word input give exactly four
one-word chunks. -/
theorem C4_witness :
    (1 ≤ (tokensOf "one two three four".toList).length ∧ 1 ≤ 10) ∧
    splitTextIntoChunks "one two three four".toList 10 =
      [{ id := 0, text := "one".toList }, { id := 1, text := "two".toList },
       { id := 2, text := "three".toList }, { id := 3, text := "four".toList }] ∧
    ((∀ c ∈ (splitTextIntoChunks "one two three four".toList 10).dropLast,
        (tokensOf c.text).length
          = ((tokensOf "one two three four".toList).length + 10 - 1) / 10) ∧
     (∀ c, (splitTextIntoChunks "one two three four".toList 10).getLast? = some c →
        1 ≤ (tokensOf c.text).length ∧
        (tokensOf c.text).length
          ≤ ((tokensOf "one two three four".toList).length + 10 - 1) / 10) ∧
     (splitTextIntoChunks "one two three four".toList 10).length ≤ 10 ∧
     ((tokensOf "one two three four".toList).length < 10 →
        (splitTextIntoChunks "one two three four".toList 10).length
          = (tokensOf "one two three four".toList).length)) :=
  ⟨⟨by decide, by decide⟩, by decide,
    C4_chunk_sizes "one two three four".toList 10 (by decide) (by decide)⟩
